import Mathlib

/-!
# Verification of the variable-resolution and result-propagation engine

Shallow embedding of `pkg/reconciler/pipelinerun/resources/apply.go`
(Tekton pipeline engine) and proofs about the claims on its behaviour.

Go strings are modelled as `List Char` (which is what a Lean `String`
wraps); Go `map[string]T` is modelled as an association list with
overwrite-on-insert semantics, matching Go's keyed assignment.
Templated text (fields that may contain `$(...)` references) is modelled
as a list of tokens: literal chunks and reference expressions.  The
substitution and extraction helpers of the repository
(`pkg/substitution`, the `GetVarSubstitutionExpressions` family) are not
under `src/` and are modelled from the spec where noted.
-/

set_option autoImplicit false

namespace Pipeline

/-- A Go string, viewed as its character list. -/
abbrev GoStr := List Char

/-- Shorthand turning a Lean string literal into the Go string model. -/
def gs (s : String) : GoStr := s.data

/-! ## Go map model: association lists with overwrite-on-insert -/

/-- Lookup in the Go-map model: first entry with the given key. -/
def mapLookup {α : Type} (m : List (GoStr × α)) (k : GoStr) : Option α :=
  match m with
  | [] => none
  | (k', v) :: rest => if k' = k then some v else mapLookup rest k

/-- Keyed assignment `m[k] = v` in the Go-map model: replace the existing
entry for `k`, or append a fresh one. -/
def mapInsert {α : Type} (m : List (GoStr × α)) (k : GoStr) (v : α) :
    List (GoStr × α) :=
  match m with
  | [] => [(k, v)]
  | (k', v') :: rest =>
    if k' = k then (k', v) :: rest else (k', v') :: mapInsert rest k v

/-- The keys of a map. -/
def mapKeys {α : Type} (m : List (GoStr × α)) : List GoStr := m.map Prod.fst

theorem mapLookup_insert {α : Type} (m : List (GoStr × α)) (k k' : GoStr) (v : α) :
    mapLookup (mapInsert m k v) k' = if k = k' then some v else mapLookup m k' := by
  induction m with
  | nil => simp [mapInsert, mapLookup]
  | cons hd tl ih =>
    obtain ⟨hk, hv⟩ := hd
    by_cases h1 : hk = k
    · subst h1
      by_cases h2 : hk = k' <;> simp [mapInsert, mapLookup, h2]
    · by_cases h2 : hk = k'
      · subst h2
        have : ¬ k = hk := fun h => h1 h.symm
        simp [mapInsert, mapLookup, h1, this]
      · simp [mapInsert, mapLookup, h1, h2, ih]

theorem mapLookup_insert_self {α : Type} (m : List (GoStr × α)) (k : GoStr) (v : α) :
    mapLookup (mapInsert m k v) k = some v := by
  simp [mapLookup_insert]

theorem mapLookup_insert_ne {α : Type} (m : List (GoStr × α)) (k k' : GoStr) (v : α)
    (h : k ≠ k') : mapLookup (mapInsert m k v) k' = mapLookup m k' := by
  simp [mapLookup_insert, h]

/-- Membership of a key is preserved by insertion. -/
theorem mapLookup_insert_isSome {α : Type} (m : List (GoStr × α)) (k k' : GoStr) (v : α)
    (h : (mapLookup m k').isSome) : (mapLookup (mapInsert m k v) k').isSome := by
  by_cases hk : k = k'
  · subst hk; simp [mapLookup_insert]
  · simpa [mapLookup_insert, hk] using h

/-! ## Character-level string utilities mirroring the Go helpers -/

/-- `strings.Split(s, ".")`: split a string at every dot. -/
def splitDots : GoStr → List GoStr
  | [] => [[]]
  | c :: rest =>
    if c = '.' then [] :: splitDots rest
    else
      match splitDots rest with
      | [] => [[c]]
      | s :: ss => (c :: s) :: ss

theorem splitDots_ne_nil (s : GoStr) : splitDots s ≠ [] := by
  induction s with
  | nil => simp [splitDots]
  | cons c rest ih =>
    by_cases h : c = '.'
    · simp [splitDots, h]
    · simp only [splitDots, h, if_false]
      cases hs : splitDots rest with
      | nil => simp
      | cons a l => simp

theorem splitDots_no_dot (s : GoStr) (hs : '.' ∉ s) : splitDots s = [s] := by
  induction s with
  | nil => simp [splitDots]
  | cons c rest ih =>
    simp only [List.mem_cons] at hs
    push_neg at hs
    have hc : ¬ c = '.' := fun hh => hs.1 hh.symm
    simp [splitDots, hc, ih hs.2]

theorem splitDots_append_dot (a b : GoStr) (h : '.' ∉ a) :
    splitDots (a ++ '.' :: b) = a :: splitDots b := by
  induction a with
  | nil => simp [splitDots]
  | cons c rest ih =>
    simp only [List.mem_cons] at h
    push_neg at h
    have hc : ¬ c = '.' := fun hh => h.1 hh.symm
    simp only [List.cons_append, splitDots, hc, if_false]
    rw [show rest.append ('.' :: b) = rest ++ '.' :: b from rfl, ih h.2]

/-- Decimal digit character for `d < 10`. -/
def digitChar (d : Nat) : Char := Char.ofNat (48 + d)

/-- Fuel-driven decimal rendering (structural recursion so that the
kernel can evaluate it). -/
def natToCharsAux : Nat → Nat → GoStr
  | 0, _ => []
  | fuel + 1, n =>
    if n < 10 then [digitChar n]
    else natToCharsAux fuel (n / 10) ++ [digitChar (n % 10)]

/-- `strconv.Itoa` on a natural number: decimal digit characters. -/
def natToChars (n : Nat) : GoStr := natToCharsAux (n + 1) n

/-- Whether a character is a decimal digit. -/
def isDigitCh (c : Char) : Bool := decide ('0' ≤ c ∧ c ≤ '9')

/-- Numeric value of a digit string (no sign handling; used on `[0-9]+`). -/
def digitsVal (s : GoStr) : Nat :=
  s.foldl (fun acc c => 10 * acc + (c.toNat - 48)) 0

/-- `strconv.Atoi` as used at the call sites of `apply.go`: the error is
ignored there, so a non-numeric string yields `0`, matching Go's zero
value on error.  Only non-negative indices can reach this point (the
index grammar is `[0-9]+`), so the result is a `Nat`. -/
def goAtoi (s : GoStr) : Nat :=
  if s ≠ [] ∧ s.all isDigitCh then digitsVal s else 0

/-- Whether a bracket payload is a well-formed index: digits or the splat. -/
def isIdxPayload (x : GoStr) : Bool :=
  (decide (x ≠ []) && x.all isDigitCh) || decide (x = ['*'])

/-- Split a reversed string at the first `[`: returns the chars before it
and the remainder after it, or `none` when there is no `[`. -/
def spanBracket : List Char → Option (GoStr × GoStr)
  | [] => none
  | c :: rest =>
    if c = '[' then some ([], rest)
    else (spanBracket rest).map (fun p => (c :: p.1, p.2))

theorem spanBracket_append (l t : GoStr) (h : '[' ∉ l) :
    spanBracket (l ++ '[' :: t) = some (l, t) := by
  induction l with
  | nil => simp [spanBracket]
  | cons c rest ih =>
    simp only [List.mem_cons] at h
    push_neg at h
    have hc : ¬ c = '[' := fun hh => h.1 hh.symm
    simp only [List.cons_append, spanBracket, hc, if_false]
    rw [show rest.append ('[' :: t) = rest ++ '[' :: t from rfl,
      ih (fun hm => h.2 hm)]
    rfl

theorem spanBracket_no_bracket (l : GoStr) (h : '[' ∉ l) :
    spanBracket l = none := by
  induction l with
  | nil => simp [spanBracket]
  | cons c rest ih =>
    simp only [List.mem_cons] at h
    push_neg at h
    have hc : ¬ c = '[' := fun hh => h.1 hh.symm
    simp [spanBracket, hc, ih (fun hm => h.2 hm)]

/-- Modelled from the spec: `v1.ParseResultName` splits a trailing
`[<int>]` or `[*]` suffix off a result name, returning the bare name and
the index string (empty when there is no index suffix): the spec's
result grammar is `tasks.<name>.results.<result>` with optional trailing
`[<int>]`, `[*]`.  Implemented by scanning from the end of the string. -/
def parseResultName (s : GoStr) : GoStr × GoStr :=
  match s.reverse with
  | ']' :: rest =>
    match spanBracket rest with
    | some (xr, base) =>
      if isIdxPayload xr.reverse then (base.reverse, xr.reverse) else (s, [])
    | none => (s, [])
  | _ => (s, [])

/-- Modelled from the spec: `substitution.StripStarVarSubExpression`
removes a trailing `[*]` splat suffix from a reference expression. -/
def stripStar (s : GoStr) : GoStr :=
  match s.reverse with
  | ']' :: '*' :: '[' :: rest => rest.reverse
  | _ => s

theorem stripStar_append_star (k : GoStr) : stripStar (k ++ gs "[*]") = k := by
  have : (k ++ gs "[*]").reverse = ']' :: '*' :: '[' :: k.reverse := by
    simp [gs]
  simp [stripStar, this]

/-- A segment is clean when it contains none of the structural
characters that the key grammar uses: dots, brackets, the splat. -/
def cleanSeg (s : GoStr) : Prop :=
  '.' ∉ s ∧ '[' ∉ s ∧ ']' ∉ s ∧ '*' ∉ s

instance (s : GoStr) : Decidable (cleanSeg s) := by
  unfold cleanSeg; infer_instance

theorem parseResultName_clean (s : GoStr) (h : cleanSeg s) :
    parseResultName s = (s, []) := by
  obtain ⟨-, -, hr, -⟩ := h
  unfold parseResultName
  cases hs : s.reverse with
  | nil => simp
  | cons c rest =>
    have hc : c ∈ s := by
      have : c ∈ s.reverse := by rw [hs]; exact List.mem_cons_self _ _
      simpa using this
    have : c ≠ ']' := fun hh => hr (hh ▸ hc)
    simp [this]

theorem parseResultName_append_idx (x d : GoStr) (hb : '[' ∉ d)
    (hd : isIdxPayload d) : parseResultName (x ++ '[' :: d ++ [']']) = (x, d) := by
  have hrev : (x ++ '[' :: d ++ [']']).reverse = ']' :: (d.reverse ++ '[' :: x.reverse) := by
    simp
  have hspan : spanBracket (d.reverse ++ '[' :: x.reverse) = some (d.reverse, x.reverse) :=
    spanBracket_append _ _ (by simpa using hb)
  simp [parseResultName, hrev, hspan, hd]

/-- The index suffix `[i]` as character text. -/
def idxSuffix (i : Nat) : GoStr := '[' :: natToChars i ++ [']']

/-! ## Templated text

A templated Go string is modelled as a sequence of tokens: literal
chunks and `$(expr)` variable references.  This is the shallow embedding
of the strings manipulated by `pkg/substitution`. -/

/-- One token of a templated string. -/
inductive Tok where
  /-- A literal chunk of text. -/
  | lit (s : GoStr)
  /-- A `$(e)` variable reference with expression `e`. -/
  | ref (e : GoStr)
deriving DecidableEq, Repr

/-- A templated string. -/
abbrev Tmpl := List Tok

/-- A purely literal templated string. -/
def litT (s : String) : Tmpl := [Tok.lit s.data]

/-- A single-reference templated string `$(e)`. -/
def refT (e : String) : Tmpl := [Tok.ref e.data]

/-- String replacement map (`map[string]string`). -/
abbrev SMap := List (GoStr × Tmpl)
/-- Array replacement map (`map[string][]string`). -/
abbrev AMap := List (GoStr × List Tmpl)
/-- Object replacement map (`map[string]map[string]string`). -/
abbrev OMap := List (GoStr × List (GoStr × Tmpl))

/-- Modelled from the spec: the Substitution Engine's string form,
`substitution.ApplyReplacements(text, stringMap)` — for every contained
reference expression that matches a string-map key, replace it verbatim
with the mapped value; unresolved references are left as literal
template text. -/
def substTmpl (m : SMap) (t : Tmpl) : Tmpl :=
  t.flatMap fun tok =>
    match tok with
    | .lit s => [Tok.lit s]
    | .ref e =>
      match mapLookup m e with
      | some v => v
      | none => [Tok.ref e]

/-- Modelled from the spec: the Reference Extractor,
`GetVarSubstitutionExpressions` — the set of variable-reference
expressions a templated string contains. -/
def tmplRefs (t : Tmpl) : List GoStr :=
  t.filterMap fun tok =>
    match tok with
    | .lit _ => none
    | .ref e => some e

theorem substTmpl_no_match (m : SMap) (t : Tmpl)
    (h : ∀ e ∈ tmplRefs t, mapLookup m e = none) : substTmpl m t = t := by
  induction t with
  | nil => rfl
  | cons tok rest ih =>
    have hrest : ∀ e ∈ tmplRefs rest, mapLookup m e = none := by
      intro e he
      apply h
      cases tok with
      | lit s => simpa [tmplRefs] using he
      | ref e' => simp [tmplRefs] at he ⊢; right; simpa [tmplRefs] using he
    cases tok with
    | lit s => simpa [substTmpl, tmplRefs] using ih hrest
    | ref e =>
      have he : mapLookup m e = none := h e (by simp [tmplRefs])
      simpa [substTmpl, he] using ih hrest

/-! ## Data model (`v1` API types used by `apply.go`) -/

/-- `v1.ParamType`. -/
inductive ParamType where
  | string
  | array
  | object
deriving DecidableEq, Repr

/-- `v1.ParamValue` / `v1.ResultValue`: a tagged union carried as a
struct holding all three shapes, with `type` selecting the active one. -/
structure ParamValue where
  type : ParamType
  stringVal : Tmpl
  arrayVal : List Tmpl
  objectVal : List (GoStr × Tmpl)
deriving DecidableEq, Repr

/-- A string-typed value. -/
def strVal (t : Tmpl) : ParamValue := ⟨ParamType.string, t, [], []⟩
/-- An array-typed value. -/
def arrVal (a : List Tmpl) : ParamValue := ⟨ParamType.array, [], a, []⟩
/-- An object-typed value. -/
def objVal (o : List (GoStr × Tmpl)) : ParamValue := ⟨ParamType.object, [], [], o⟩

/-- Modelled from the spec: the reference expressions contained in a
value, across all three shapes. -/
def ParamValue.refs (v : ParamValue) : List GoStr :=
  tmplRefs v.stringVal ++ v.arrayVal.flatMap tmplRefs ++
    v.objectVal.flatMap (fun p => tmplRefs p.2)

/-- Modelled from the spec: array-context substitution of one element —
an element that is exactly one reference matching an array-map key
splices in the whole array; otherwise string substitution applies. -/
def applyArrayReplacements (s : SMap) (a : AMap) (t : Tmpl) : List Tmpl :=
  match t with
  | [Tok.ref e] =>
    match mapLookup a (stripStar e) with
    | some xs => xs
    | none => [substTmpl s t]
  | _ => [substTmpl s t]

/-- Modelled from the spec: `ParamValue.ApplyReplacements` — apply the
three replacement maps to a value once; a string value that is exactly
one reference to an array or object key is promoted to that shape. -/
def ParamValue.applyReplacements (v : ParamValue) (s : SMap) (a : AMap) (o : OMap) :
    ParamValue :=
  match v.type with
  | ParamType.array => { v with arrayVal := v.arrayVal.flatMap (applyArrayReplacements s a) }
  | ParamType.object => { v with objectVal := v.objectVal.map (fun p => (p.1, substTmpl s p.2)) }
  | ParamType.string =>
    match v.stringVal with
    | [Tok.ref e] =>
      match mapLookup a (stripStar e) with
      | some xs => arrVal xs
      | none =>
        match mapLookup o (stripStar e) with
        | some ov => objVal ov
        | none => { v with stringVal := substTmpl s v.stringVal }
    | _ => { v with stringVal := substTmpl s v.stringVal }

/-- `v1.Param`. -/
structure Param where
  name : GoStr
  value : ParamValue
deriving DecidableEq, Repr

/-- `v1.ParamSpec` (a declared pipeline parameter; `defaultVal` models
the `Default *ParamValue` field). -/
structure ParamSpec where
  name : GoStr
  defaultVal : Option ParamValue
deriving DecidableEq, Repr

/-- Modelled from the spec: `Params.ReplaceVariables` applies the maps
to every parameter value. -/
def replaceVariablesParams (ps : List Param) (s : SMap) (a : AMap) (o : OMap) :
    List Param :=
  ps.map fun p => { p with value := p.value.applyReplacements s a o }

/-- One when-expression (`v1.WhenExpression`): templated input and values. -/
structure WhenExpr where
  input : Tmpl
  values : List Tmpl
deriving DecidableEq, Repr

/-- Modelled from the spec: `WhenExpressions.ReplaceVariables`. -/
def replaceVariablesWhen (ws : List WhenExpr) (s : SMap) (a : AMap) : List WhenExpr :=
  ws.map fun w =>
    { input := substTmpl s w.input
      values := w.values.flatMap (applyArrayReplacements s a) }

/-- One explicit matrix combination (`v1.IncludeParams`). -/
structure IncludeParams where
  name : GoStr
  params : List Param
deriving DecidableEq, Repr

/-- `v1.Matrix`: parameter axes plus explicit include combinations. -/
structure Matrix where
  params : List Param
  includeCombos : List IncludeParams
deriving DecidableEq, Repr

/-- Modelled from the spec: `Matrix.CountCombinations` — the product of
each matrix parameter's value-sequence length, or the explicit include
count when no matrix axes are defined. -/
def countCombinations (m : Option Matrix) : Nat :=
  match m with
  | none => 0
  | some mx =>
    if mx.params = [] then mx.includeCombos.length
    else mx.params.foldl (fun acc p => acc * p.value.arrayVal.length) 1

/-- `v1.TaskRef`: a templated name plus parameters. -/
structure TaskRef where
  name : Tmpl
  params : List Param
deriving DecidableEq, Repr

/-- A generic embedded task specification: only its templated leaves
matter to the resolution engine. -/
structure TaskSpec where
  fields : List Tmpl
deriving DecidableEq, Repr

/-- `v1.EmbeddedTask` (wraps a `TaskSpec`). -/
structure EmbeddedTask where
  taskSpec : TaskSpec
deriving DecidableEq, Repr

/-- Modelled from the spec: `taskrun/resources.ApplyReplacements`
applied to an embedded task specification — substitute every templated
leaf. -/
def applyReplacementsTaskSpec (ts : TaskSpec) (s : SMap) (_a : AMap) (_o : OMap) :
    TaskSpec :=
  { fields := ts.fields.map (substTmpl s) }

/-- A task's workspace binding (`v1.WorkspacePipelineTaskBinding`). -/
structure WorkspacePipelineTaskBinding where
  name : GoStr
  subPath : Tmpl
deriving DecidableEq, Repr

/-- `v1.PipelineTask`. -/
structure PipelineTask where
  name : GoStr
  displayName : Tmpl
  retries : Nat
  params : List Param
  matrix : Option Matrix
  whenExprs : List WhenExpr
  taskRef : Option TaskRef
  taskSpec : Option EmbeddedTask
  workspaces : List WorkspacePipelineTaskBinding
  onError : Tmpl
deriving DecidableEq, Repr

/-- Modelled from the spec: `PipelineTask.IsMatrixed` — the task owns a
matrix with axes or include combinations. -/
def PipelineTask.isMatrixed (pt : PipelineTask) : Bool :=
  match pt.matrix with
  | none => false
  | some m => decide (m.params ≠ []) || decide (m.includeCombos ≠ [])

/-- `v1.PipelineResult`: a declared pipeline-level result. -/
structure PipelineResult where
  name : GoStr
  value : ParamValue
deriving DecidableEq, Repr

/-- `v1.PipelineRunResult`: a computed pipeline-run result. -/
structure PipelineRunResult where
  name : GoStr
  value : ParamValue
deriving DecidableEq, Repr

/-- `v1.TaskRunResult` (the `Type` field lives inside the value). -/
structure TaskRunResult where
  name : GoStr
  value : ParamValue
deriving DecidableEq, Repr

/-- `v1beta1.CustomRunResult`: custom task results are plain strings. -/
structure CustomRunResult where
  name : GoStr
  value : Tmpl
deriving DecidableEq, Repr

/-- A pipeline-declared workspace (only the name matters here). -/
structure PipelineWorkspaceDeclaration where
  name : GoStr
deriving DecidableEq, Repr

/-- A workspace binding supplied by the run (only the name matters here). -/
structure WorkspaceBinding where
  name : GoStr
deriving DecidableEq, Repr

/-- `v1.PipelineSpec` restricted to the fields `apply.go` touches. -/
structure PipelineSpec where
  params : List ParamSpec
  tasks : List PipelineTask
  finallyTasks : List PipelineTask
  workspaces : List PipelineWorkspaceDeclaration
deriving DecidableEq, Repr

/-- `v1.PipelineRunSpec` restricted to the fields `apply.go` touches. -/
structure PipelineRunSpec where
  params : List Param
  workspaces : List WorkspaceBinding
deriving DecidableEq, Repr

/-- `v1.PipelineRun` restricted to the fields `apply.go` touches. -/
structure PipelineRun where
  name : GoStr
  namespaceName : GoStr
  uid : GoStr
  spec : PipelineRunSpec
deriving DecidableEq, Repr

/-- `v1.PipelineRunStatus` restricted to the fields `apply.go` touches. -/
structure PipelineRunStatus where
  pipelineSpec : Option PipelineSpec
deriving DecidableEq, Repr

/-- One run-state entry (`ResolvedPipelineTask`).  `childRunResults` is
modelled from the spec: the results of this task's matrix-expanded
child runs in run-execution order, from which the Results Cache is
computed on demand.  `cacheComputeCount` is ghost instrumentation that
counts how many times the cache has been (re)computed for this entry;
it corresponds to no Go field and influences no other field. -/
structure ResolvedPipelineTask where
  pipelineTask : Option PipelineTask
  resultsCache : List (GoStr × List Tmpl)
  childRunResults : List (List (GoStr × Tmpl))
  cacheComputeCount : Nat
deriving DecidableEq, Repr

/-- `PipelineRunState`. -/
abbrev PipelineRunState := List ResolvedPipelineTask

/-- `PipelineRunFacts` restricted to the fields `apply.go` touches. -/
structure PipelineRunFacts where
  state : PipelineRunState
deriving DecidableEq, Repr

/-- Modelled from the spec: `createResultsCacheMatrixedTaskRuns` —
gather each result's value across every one of the task's
matrix-expanded child runs, in run-execution order. -/
def createResultsCache (rpt : ResolvedPipelineTask) : List (GoStr × List Tmpl) :=
  rpt.childRunResults.foldl
    (fun cache run =>
      run.foldl (fun c p => mapInsert c p.1 ((mapLookup c p.1).getD [] ++ [p.2])) cache)
    []

/-- Modelled from the spec: `ResolvedResultRefs` with its three derived
replacement maps (`getStringReplacements` and friends are projections). -/
structure ResolvedResultRefs where
  strMap : SMap
  arrMap : AMap
  objMap : OMap
deriving DecidableEq, Repr

/-! ## Constants of `apply.go` and of the reference grammar -/

/-- `v1.ResultTaskPart`: the `tasks` reference prefix. -/
def resultTaskPart : GoStr := gs "tasks"

/-- `v1.ResultFinallyPart`: the `finally` reference prefix. -/
def resultFinallyPart : GoStr := gs "finally"

/-- `v1beta1.ResultResultPart`: the `results` reference segment. -/
def resultResultPart : GoStr := gs "results"

/-- Modelled from the spec: the status-key convention
`<prefix><taskName><suffix>` used to look up a producing task's
completion status (the Go prefix/suffix constants live outside the
resolution module). -/
def taskStatusKey (t : GoStr) : GoStr := gs "tasks." ++ t ++ gs ".status"

/-- Modelled from the spec: `v1.TaskRunReasonSuccessful.String()`, the
successful-run reason. -/
def successfulReason : GoStr := gs "Succeeded"

/-- `paramPatterns[0]`: `params.%s`. -/
def patDot (n : GoStr) : GoStr := gs "params." ++ n

/-- `paramPatterns[1]`: `params[%q]` (the `%q` quoting is rendered
without escapes, which is exact for names free of quotes and
backslashes). -/
def patQuote (n : GoStr) : GoStr := gs "params[\"" ++ n ++ gs "\"]"

/-- `paramPatterns[2]`: `params['%s']`. -/
def patApos (n : GoStr) : GoStr := gs "params['" ++ n ++ gs "']"

/-- `paramPatterns`: the three equivalent parameter addressing forms. -/
def paramPatterns : List (GoStr → GoStr) := [patDot, patQuote, patApos]

/-- `objectIndividualVariablePattern`: `params.%s.%s`, the (sole)
addressing form for an object parameter's individual key. -/
def objAttrKey (n k : GoStr) : GoStr := gs "params." ++ n ++ gs "." ++ k

/-! ## Parameter Resolver (`ApplyParameters`, `paramsFromPipelineRun`) -/

/-- The triple of replacement maps built by the parameter resolver. -/
structure RMaps where
  str : SMap
  arr : AMap
  obj : OMap
deriving DecidableEq, Repr

/-- The empty replacement-map triple. -/
def RMaps.empty : RMaps := ⟨[], [], []⟩

/-- The seeding loop body shared verbatim by `ApplyParameters` (for
declared defaults) and `paramsFromPipelineRun` (for run-supplied
values): populate the maps for one named value under all three
addressing forms, switching on the value's type tag. -/
def seedParamValue (maps : RMaps) (name : GoStr) (v : ParamValue) : RMaps :=
  match v.type with
  | ParamType.array =>
    paramPatterns.foldl
      (fun ms pat =>
        let ms' := (List.range v.arrayVal.length).foldl
          (fun ms2 i =>
            { ms2 with str := mapInsert ms2.str (pat name ++ idxSuffix i) (v.arrayVal.getD i []) })
          ms
        { ms' with arr := mapInsert ms'.arr (pat name) v.arrayVal })
      maps
  | ParamType.object =>
    let ms := paramPatterns.foldl
      (fun ms2 pat => { ms2 with obj := mapInsert ms2.obj (pat name) v.objectVal })
      maps
    v.objectVal.foldl
      (fun ms2 kv => { ms2 with str := mapInsert ms2.str (objAttrKey name kv.1) kv.2 })
      ms
  | ParamType.string =>
    paramPatterns.foldl
      (fun ms2 pat => { ms2 with str := mapInsert ms2.str (pat name) v.stringVal })
      maps

/-- The default-seeding loop of `ApplyParameters`: parameters without a
default contribute nothing. -/
def pipelineDefaultReplacements (params : List ParamSpec) : RMaps :=
  params.foldl
    (fun ms ps =>
      match ps.defaultVal with
      | none => ms
      | some v => seedParamValue ms ps.name v)
    RMaps.empty

/-- `paramsFromPipelineRun`. -/
def paramsFromPipelineRun (pr : PipelineRun) : RMaps :=
  pr.spec.params.foldl (fun ms p => seedParamValue ms p.name p.value) RMaps.empty

/-- The overwrite loops of `ApplyParameters`: every run-supplied entry
is written over the default maps. -/
def overlayMaps (base ext : RMaps) : RMaps :=
  { str := ext.str.foldl (fun m kv => mapInsert m kv.1 kv.2) base.str
    arr := ext.arr.foldl (fun m kv => mapInsert m kv.1 kv.2) base.arr
    obj := ext.obj.foldl (fun m kv => mapInsert m kv.1 kv.2) base.obj }

/-- The replacement maps `ApplyParameters` ends up substituting with:
defaults overlaid with run-supplied values. -/
def applyParametersMaps (p : PipelineSpec) (pr : PipelineRun) : RMaps :=
  overlayMaps (pipelineDefaultReplacements p.params) (paramsFromPipelineRun pr)

/-! ## Substitution over a pipeline spec (`ApplyReplacements` and the
per-task loop `replaceVariablesInPipelineTasks`, `propagateParams`) -/

/-- `propagateParams`: when the task has an embedded spec and its own
parameters, duplicate the maps and overwrite entries whose keys a task
parameter shadows (task params replace pipeline params), then
substitute the embedded task spec. -/
def propagateParams (t : PipelineTask) (s : SMap) (a : AMap) (o : OMap) : PipelineTask :=
  match t.taskSpec with
  | none => t
  | some emb =>
    if t.params ≠ [] then
      let dup := t.params.foldl
        (fun (ms : RMaps) par =>
          paramPatterns.foldl
            (fun ms2 pat =>
              let checkName := pat par.name
              let s2 := if (mapLookup ms2.str checkName).isSome
                then mapInsert ms2.str checkName par.value.stringVal else ms2.str
              let a2 := if (mapLookup ms2.arr checkName).isSome
                then mapInsert ms2.arr checkName par.value.arrayVal else ms2.arr
              if (mapLookup ms2.obj checkName).isSome then
                { str := par.value.objectVal.foldl
                    (fun sm kv => mapInsert sm (objAttrKey par.name kv.1) kv.2) s2
                  arr := a2
                  obj := mapInsert ms2.obj checkName par.value.objectVal }
              else { str := s2, arr := a2, obj := ms2.obj })
            ms)
        ⟨s, a, o⟩
      { t with taskSpec := some ⟨applyReplacementsTaskSpec emb.taskSpec dup.str dup.arr dup.obj⟩ }
    else
      { t with taskSpec := some ⟨applyReplacementsTaskSpec emb.taskSpec s a o⟩ }

/-- The loop body of `replaceVariablesInPipelineTasks` for one task. -/
def replaceVariablesInOneTask (t : PipelineTask) (s : SMap) (a : AMap) (o : OMap) :
    PipelineTask :=
  let t1 := { t with params := replaceVariablesParams t.params s a o }
  let t2 :=
    if t1.isMatrixed then
      { t1 with matrix := t1.matrix.map fun m =>
          { m with
            params := replaceVariablesParams m.params s a []
            includeCombos := m.includeCombos.map fun inc =>
              { inc with params := replaceVariablesParams inc.params s [] [] } } }
    else
      { t1 with displayName := substTmpl s t1.displayName }
  let t3 := { t2 with workspaces := t2.workspaces.map fun (w : WorkspacePipelineTaskBinding) =>
      { w with subPath := substTmpl s w.subPath } }
  let t4 := { t3 with whenExprs := replaceVariablesWhen t3.whenExprs s a }
  let t5 :=
    match t4.taskRef with
    | none => t4
    | some tr =>
      let tr' := TaskRef.mk (substTmpl s tr.name) (replaceVariablesParams tr.params s a o)
      { t4 with taskRef := some tr' }
  let t6 := { t5 with onError := substTmpl s t5.onError }
  propagateParams t6 s a o

/-- `ApplyReplacements` on a pipeline spec: Go deep-copies the spec
first and then rewrites the copy's task lists in place, so the input
itself is never written — the embedding returns the rewritten copy. -/
def applyReplacementsSpec (p : PipelineSpec) (s : SMap) (a : AMap) (o : OMap) :
    PipelineSpec :=
  { p with
    tasks := p.tasks.map (fun t => replaceVariablesInOneTask t s a o)
    finallyTasks := p.finallyTasks.map (fun t => replaceVariablesInOneTask t s a o) }

/-- `ApplyParameters`.  The Go function only reads through `p` before
`ApplyReplacements` deep-copies, so the input spec is unchanged; the
embedding returns the pair (input spec after the call, returned spec). -/
def applyParameters (p : PipelineSpec) (pr : PipelineRun) :
    PipelineSpec × PipelineSpec :=
  let final := applyParametersMaps p pr
  (p, applyReplacementsSpec p final.str final.arr final.obj)

/-! ## Context & Workspace Resolver -/

/-- `GetContextReplacements`. -/
def getContextReplacements (pipelineName : GoStr) (pr : PipelineRun) : SMap :=
  [(gs "context.pipelineRun.name", [Tok.lit pr.name]),
   (gs "context.pipeline.name", [Tok.lit pipelineName]),
   (gs "context.pipelineRun.namespace", [Tok.lit pr.namespaceName]),
   (gs "context.pipelineRun.uid", [Tok.lit pr.uid])]

/-- `ApplyContexts`.  Go writes every task's and finally-task's
`DisplayName` through the input pointer *before* `ApplyReplacements`
deep-copies, so the input spec is mutated; the embedding returns the
pair (input spec after the call, returned spec). -/
def applyContexts (spec : PipelineSpec) (pipelineName : GoStr) (pr : PipelineRun) :
    PipelineSpec × PipelineSpec :=
  let repl := getContextReplacements pipelineName pr
  let mutated := { spec with
    tasks := spec.tasks.map fun t => { t with displayName := substTmpl repl t.displayName }
    finallyTasks := spec.finallyTasks.map fun t =>
      { t with displayName := substTmpl repl t.displayName } }
  (mutated, applyReplacementsSpec mutated repl [] [])

/-- The bound-flag key `workspaces.<name>.bound`. -/
def workspaceBoundKey (n : GoStr) : GoStr := gs "workspaces." ++ n ++ gs ".bound"

/-- `ApplyWorkspaces`.  Go deep-copies the spec before building the
replacement map, so the input spec is unchanged; the embedding returns
the pair (input spec after the call, returned spec). -/
def applyWorkspaces (p : PipelineSpec) (pr : PipelineRun) :
    PipelineSpec × PipelineSpec :=
  let declared := p.workspaces.foldl
    (fun m w => mapInsert m (workspaceBoundKey w.name) (litT "false")) []
  let repl := pr.spec.workspaces.foldl
    (fun m w => mapInsert m (workspaceBoundKey w.name) (litT "true")) declared
  (p, applyReplacementsSpec p repl [] [])

/-! ## Task-Context & Matrix Resolver (`ApplyPipelineTaskContexts`) -/

/-- Whether an expression is a matrix context variable
(`tasks.<name>.matrix.length` / `tasks.<name>.matrix.<result>.length`):
at least four dot segments, third segment `matrix`, last `length`. -/
def isMatrixContextVar (e : GoStr) : Bool :=
  let subs := splitDots e
  decide (4 ≤ subs.length) && decide (subs.getD 2 [] = gs "matrix") &&
    decide (subs.getLast? = some (gs "length"))

/-- `filterMatrixContextVar`: the params containing matrix context
variables; a param is appended once per matching expression, exactly as
the Go loop does. -/
def filterMatrixContextVar (params : List Param) : List Param :=
  params.foldl
    (fun acc p =>
      let exprs := p.value.refs
      if exprs ≠ [] then
        exprs.foldl (fun acc2 e => if isMatrixContextVar e then acc2 ++ [p] else acc2) acc
      else acc)
    []

/-- Modelled from the spec: `Param.ParseTaskandResultName` — from the
param's first matrix-length expression, the producing task's name and
the optional result name (`tasks.<n>.matrix.length` yields no result
name; `tasks.<n>.matrix.<result>.length` yields `<result>`). -/
def Param.parseTaskandResultName (p : Param) : GoStr × GoStr :=
  (p.value.refs.findSome? fun e =>
    if isMatrixContextVar e then
      let subs := splitDots e
      if subs.length = 4 then some (subs.getD 1 [], ([] : GoStr))
      else some (subs.getD 1 [], subs.getD 3 [])
    else none).getD ([], [])

/-- The matrix-length key `tasks.<name>.matrix.length`. -/
def matrixLenKey (tn : GoStr) : GoStr := gs "tasks." ++ tn ++ gs ".matrix.length"

/-- The matrix-result-length key `tasks.<name>.matrix.<result>.length`. -/
def matrixResultLenKey (tn rn : GoStr) : GoStr :=
  gs "tasks." ++ tn ++ gs ".matrix." ++ rn ++ gs ".length"

/-- The loop over the status pipeline spec's tasks: every task whose
name matches contributes the combination count under the
matrix-length key. -/
def matrixLenStep (prStatus : PipelineRunStatus) (repl : SMap) (tn : GoStr) : SMap :=
  match prStatus.pipelineSpec with
  | none => repl
  | some spec =>
    spec.tasks.foldl
      (fun r task =>
        if task.name = tn then
          mapInsert r (matrixLenKey tn) [Tok.lit (natToChars (countCombinations task.matrix))]
        else r)
      repl

/-- The loop over the run state for the matrix-result-length lookup.
Go dereferences `pt.PipelineTask.Name` on every entry, so a nil entry
is a panic (`none`).  A matching entry whose cache is empty recomputes
it (bumping the ghost counter); the result length is the length of the
cache row for the result name, `0` when absent. -/
def resultsCacheStep (tn rn : GoStr)
    (acc : Option (PipelineRunState × SMap)) (e : ResolvedPipelineTask) :
    Option (PipelineRunState × SMap) := do
  let (st, repl) ← acc
  let pt ← e.pipelineTask
  if pt.name = tn then
    let recompute := e.resultsCache.length = 0
    let cache := if recompute then createResultsCache e else e.resultsCache
    let e' := { e with
      resultsCache := cache
      cacheComputeCount := e.cacheComputeCount + (if recompute then 1 else 0) }
    let resultLength := ((mapLookup cache rn).getD []).length
    some (st ++ [e'],
      mapInsert repl (matrixResultLenKey tn rn) [Tok.lit (natToChars resultLength)])
  else
    some (st ++ [e], repl)

/-- The per-filtered-param body of `ApplyPipelineTaskContexts`. -/
def taskContextParamStep (prStatus : PipelineRunStatus)
    (acc : Option (PipelineRunState × SMap)) (p : Param) :
    Option (PipelineRunState × SMap) := do
  let (st, repl) ← acc
  let (tn, rn) := p.parseTaskandResultName
  let repl1 := if tn ≠ [] then matrixLenStep prStatus repl tn else repl
  if tn ≠ [] ∧ rn ≠ [] then
    st.foldl (resultsCacheStep tn rn) (some (([] : PipelineRunState), repl1))
  else
    some (st, repl1)

/-- The replacement-building fold of `ApplyPipelineTaskContexts`: the
retries seed, then one `taskContextParamStep` per filtered param. -/
def taskContextFold (pt : PipelineTask) (prStatus : PipelineRunStatus)
    (facts : PipelineRunFacts) : Option (PipelineRunState × SMap) :=
  (filterMatrixContextVar pt.params).foldl (taskContextParamStep prStatus)
    (some (facts.state,
      [(gs "context.pipelineTask.retries", [Tok.lit (natToChars pt.retries)])]))

/-- `ApplyPipelineTaskContexts`.  Go deep-copies the input task first,
so the input task is unchanged; the run-state entries' caches are
mutated in place through `facts`, so the embedding returns the updated
facts together with the resulting task.  `none` models the nil-pointer
panic on a state entry without a pipeline task. -/
def applyPipelineTaskContexts (pt : PipelineTask) (prStatus : PipelineRunStatus)
    (facts : PipelineRunFacts) : Option (PipelineRunFacts × PipelineTask) := do
  let (st, repl) ← taskContextFold pt prStatus facts
  let pt1 := { pt with params := replaceVariablesParams pt.params repl [] [] }
  let pt2 :=
    if pt1.isMatrixed then
      { pt1 with matrix := pt1.matrix.map fun m =>
          { m with
            params := replaceVariablesParams m.params repl [] []
            includeCombos := m.includeCombos.map fun inc =>
              { inc with params := replaceVariablesParams inc.params repl [] [] } } }
    else pt1
  let pt3 := { pt2 with displayName := substTmpl repl pt2.displayName }
  some (PipelineRunFacts.mk st, pt3)

/-! ## Result propagation to tasks (`ApplyTaskResults`,
`ApplyPipelineTaskStateContext`) -/

/-- The per-task body of `ApplyTaskResults` (run on the deep copy of a
non-nil pipeline task). -/
def applyResultsToOneTask (t : PipelineTask) (s : SMap) (a : AMap) (o : OMap) :
    PipelineTask :=
  let t1 := { t with params := replaceVariablesParams t.params s a o }
  let t2 :=
    if t1.isMatrixed then
      { t1 with matrix := t1.matrix.map fun m =>
          { m with
            params := replaceVariablesParams m.params s a []
            includeCombos := m.includeCombos.map fun inc =>
              { inc with params := replaceVariablesParams inc.params s [] [] } } }
    else t1
  let t3 := { t2 with whenExprs := replaceVariablesWhen t2.whenExprs s a }
  let t4 :=
    match t3.taskRef with
    | none => t3
    | some tr =>
      let tr' := TaskRef.mk (substTmpl s tr.name) (replaceVariablesParams tr.params s a o)
      { t3 with taskRef := some tr' }
  let t5 := { t4 with displayName := substTmpl s t4.displayName }
  { t5 with workspaces := t5.workspaces.map fun (w : WorkspacePipelineTaskBinding) =>
      { w with subPath := substTmpl s w.subPath } }

/-- `ApplyTaskResults`: entries whose pipeline task is nil are left
untouched by the nil guard; every other entry's task is replaced by the
substituted deep copy (the Go loop writes the copy back through the
entry pointer, so the embedding returns the updated state). -/
def applyTaskResults (targets : PipelineRunState) (refs : ResolvedResultRefs) :
    PipelineRunState :=
  targets.map fun rpt =>
    match rpt.pipelineTask with
    | none => rpt
    | some pt =>
      let pt' := applyResultsToOneTask pt refs.strMap refs.arrMap refs.objMap
      { rpt with pipelineTask := some pt' }

/-- The per-task body of `ApplyPipelineTaskStateContext` (run on the
deep copy of a non-nil pipeline task; array and object maps are nil). -/
def applyStateContextToOneTask (t : PipelineTask) (repl : SMap) : PipelineTask :=
  let t1 := { t with params := replaceVariablesParams t.params repl [] [] }
  let t2 := { t1 with whenExprs := replaceVariablesWhen t1.whenExprs repl [] }
  let t3 :=
    match t2.taskRef with
    | none => t2
    | some tr =>
      let tr' := TaskRef.mk (substTmpl repl tr.name) (replaceVariablesParams tr.params repl [] [])
      { t2 with taskRef := some tr' }
  { t3 with displayName := substTmpl repl t3.displayName }

/-- `ApplyPipelineTaskStateContext`: same nil guard and write-back
shape as `ApplyTaskResults`. -/
def applyPipelineTaskStateContext (state : PipelineRunState) (repl : SMap) :
    PipelineRunState :=
  state.map fun rpt =>
    match rpt.pipelineTask with
    | none => rpt
    | some pt => { rpt with pipelineTask := some (applyStateContextToOneTask pt repl) }

/-! ## Result Aggregator (`ApplyTaskResultsToPipelineResults`) -/

/-- `taskResultValue`: first result with the given name in the task's
result list (`nil` absent task or absent name both yield `none`). -/
def taskResultValue (taskName resultName : GoStr)
    (taskResults : List (GoStr × List TaskRunResult)) : Option ParamValue :=
  ((mapLookup taskResults taskName).getD []).findSome? fun tr =>
    if tr.name = resultName then some tr.value else none

/-- `runResultValue`: first custom result with the given name. -/
def runResultValue (taskName resultName : GoStr)
    (runResults : List (GoStr × List CustomRunResult)) : Option Tmpl :=
  ((mapLookup runResults taskName).getD []).findSome? fun rr =>
    if rr.name = resultName then some rr.value else none

/-- Outcome of processing one variable of a declared result. -/
inductive VarOutcome where
  /-- resolved (or already memoized). -/
  | ok
  /-- producer completed unsuccessfully: silently dropped. -/
  | dropped
  /-- marked invalid: the declared result's name joins the error list. -/
  | invalid
deriving DecidableEq, Repr

/-- The aggregator's accumulated state: the three memoized replacement
maps, the collected run results, the invalid-result names, plus
`missLog`, ghost instrumentation recording each variable expression at
the moment it misses all three memo checks and is (re)resolved; it
corresponds to no Go state and influences no other field. -/
structure AggState where
  str : SMap
  arr : AMap
  obj : OMap
  runResults : List PipelineRunResult
  invalid : List GoStr
  missLog : List GoStr
deriving DecidableEq, Repr

/-- The empty initial aggregator state. -/
def initAggState : AggState := ⟨[], [], [], [], [], []⟩

/-- Processing of one variable of a declared result, mirroring the
inner loop of `ApplyTaskResultsToPipelineResults`: memo checks first;
then the reference-shape guard (whose `variableParts[2]` access panics —
`none` — when the variable has fewer than three segments but starts
with a producer prefix); then the 4-segment and 5-segment resolution
cases. -/
def stepVar (trr : List (GoStr × List TaskRunResult))
    (ctr : List (GoStr × List CustomRunResult))
    (tstatus : List (GoStr × GoStr)) (st : AggState) (v : GoStr) :
    Option (AggState × VarOutcome) :=
  if (mapLookup st.str v).isSome then some (st, VarOutcome.ok)
  else if (mapLookup st.arr v).isSome then some (st, VarOutcome.ok)
  else if (mapLookup st.obj v).isSome then some (st, VarOutcome.ok)
  else
    let st := { st with missLog := st.missLog ++ [v] }
    let parts := splitDots v
    if ¬ (parts.getD 0 [] = resultTaskPart ∨ parts.getD 0 [] = resultFinallyPart) then
      some (st, VarOutcome.invalid)
    else
      match parts.get? 2 with
      | none => none
      | some p2 =>
        if p2 ≠ resultResultPart then some (st, VarOutcome.invalid)
        else
          match parts with
          | [_, t1, _, t3] =>
            let pr := parseResultName t3
            let resultName := pr.1
            let stringIdx := pr.2
            match taskResultValue t1 resultName trr with
            | some rv =>
              match rv.type with
              | ParamType.string =>
                some ({ st with str := mapInsert st.str v rv.stringVal }, VarOutcome.ok)
              | ParamType.array =>
                if stringIdx ≠ gs "*" then
                  let intIdx := goAtoi stringIdx
                  if intIdx < rv.arrayVal.length then
                    some ({ st with str := mapInsert st.str v (rv.arrayVal.getD intIdx []) },
                      VarOutcome.ok)
                  else some (st, VarOutcome.invalid)
                else
                  some ({ st with arr := mapInsert st.arr (stripStar v) rv.arrayVal },
                    VarOutcome.ok)
              | ParamType.object =>
                some ({ st with obj := mapInsert st.obj (stripStar v) rv.objectVal },
                  VarOutcome.ok)
            | none =>
              match runResultValue t1 resultName ctr with
              | some s =>
                some ({ st with str := mapInsert st.str v s }, VarOutcome.ok)
              | none =>
                match mapLookup tstatus (taskStatusKey t1) with
                | some status =>
                  if status ≠ successfulReason then some (st, VarOutcome.dropped)
                  else some (st, VarOutcome.invalid)
                | none => some (st, VarOutcome.invalid)
          | [_, t1, _, t3, t4] =>
            let resultName := (parseResultName t3).1
            match taskResultValue t1 resultName trr with
            | some rv =>
              match mapLookup rv.objectVal t4 with
              | some val =>
                some ({ st with str := mapInsert st.str v val }, VarOutcome.ok)
              | none => some (st, VarOutcome.invalid)
            | none =>
              match mapLookup tstatus (taskStatusKey t1) with
              | some status =>
                if status ≠ successfulReason then some (st, VarOutcome.dropped)
                else some (st, VarOutcome.invalid)
              | none => some (st, VarOutcome.invalid)
          | _ => some (st, VarOutcome.invalid)

/-- Process all variables of one declared result in order, collecting
the outcomes. -/
def processVars (trr : List (GoStr × List TaskRunResult))
    (ctr : List (GoStr × List CustomRunResult))
    (tstatus : List (GoStr × GoStr)) (st : AggState) :
    List GoStr → Option (AggState × List VarOutcome)
  | [] => some (st, [])
  | v :: rest => do
    let (st1, oc) ← stepVar trr ctr tstatus st v
    let (st2, ocs) ← processVars trr ctr tstatus st1 rest
    some (st2, oc :: ocs)

/-- Processing of one declared pipeline result, mirroring the outer
loop body: results without variables are skipped; each invalid variable
appends the declared result's name to the invalid list; when every
variable came back ok, the three maps are applied to the declared value
once and the result is emitted. -/
def processResult (trr : List (GoStr × List TaskRunResult))
    (ctr : List (GoStr × List CustomRunResult))
    (tstatus : List (GoStr × GoStr)) (st : AggState) (r : PipelineResult) :
    Option AggState :=
  let vars := r.value.refs
  if vars = [] then some st
  else do
    let (st1, ocs) ← processVars trr ctr tstatus st vars
    let invalidCount := ocs.countP fun oc => decide (oc = VarOutcome.invalid)
    let st2 := { st1 with invalid := st1.invalid ++ List.replicate invalidCount r.name }
    if ocs.all fun oc => decide (oc = VarOutcome.ok) then
      let finalValue := r.value.applyReplacements st2.str st2.arr st2.obj
      some { st2 with runResults := st2.runResults ++ [PipelineRunResult.mk r.name finalValue] }
    else some st2

/-- The aggregation fold over the declared results. -/
def applyAgg (trr : List (GoStr × List TaskRunResult))
    (ctr : List (GoStr × List CustomRunResult))
    (tstatus : List (GoStr × GoStr)) :
    AggState → List PipelineResult → Option AggState
  | st, [] => some st
  | st, r :: rest => do
    applyAgg trr ctr tstatus (← processResult trr ctr tstatus st r) rest

/-- `ApplyTaskResultsToPipelineResults`: the computed run results
paired with the combined error, modelled as the list of invalid result
names it enumerates (`none` when no declared result was invalid).  The
outer `Option` models the reference-shape panic. -/
def applyTaskResultsToPipelineResults (results : List PipelineResult)
    (trr : List (GoStr × List TaskRunResult))
    (ctr : List (GoStr × List CustomRunResult))
    (tstatus : List (GoStr × GoStr)) :
    Option (List PipelineRunResult × Option (List GoStr)) :=
  (applyAgg trr ctr tstatus initAggState results).map fun st =>
    (st.runResults, if 0 < st.invalid.length then some st.invalid else none)

/-! # Theorems -/

/-! ## C9: nil-task guard in `ApplyTaskResults` and
`ApplyPipelineTaskStateContext` -/

/-- C9: for every run-state entry whose pipeline-task pointer is nil,
`ApplyTaskResults` and `ApplyPipelineTaskStateContext` leave that entry
entirely unchanged and return normally (no nil dereference occurs: the
guard skips the entry), while every entry with a task is processed:
its task is replaced by the substituted deep copy. -/
theorem applyTaskResults_nil_entry_guard
    (state : PipelineRunState) (refs : ResolvedResultRefs) (repl : SMap)
    (i : Nat) (e : ResolvedPipelineTask) (he : state[i]? = some e) :
    (applyTaskResults state refs).length = state.length ∧
    (applyPipelineTaskStateContext state repl).length = state.length ∧
    (e.pipelineTask = none →
      (applyTaskResults state refs)[i]? = some e ∧
      (applyPipelineTaskStateContext state repl)[i]? = some e) ∧
    (∀ pt, e.pipelineTask = some pt →
      (applyTaskResults state refs)[i]? =
        some { e with pipelineTask := some (applyResultsToOneTask pt refs.strMap refs.arrMap refs.objMap) } ∧
      (applyPipelineTaskStateContext state repl)[i]? =
        some { e with pipelineTask := some (applyStateContextToOneTask pt repl) }) := by
  refine ⟨by simp [applyTaskResults], by simp [applyPipelineTaskStateContext], ?_, ?_⟩
  · intro hnil
    constructor
    · rw [applyTaskResults, List.getElem?_map, he]
      simp [hnil]
    · rw [applyPipelineTaskStateContext, List.getElem?_map, he]
      simp [hnil]
  · intro pt hpt
    constructor
    · rw [applyTaskResults, List.getElem?_map, he]
      simp [hpt]
    · rw [applyPipelineTaskStateContext, List.getElem?_map, he]
      simp [hpt]

/-- A minimal pipeline task used by concrete examples. -/
def exTask (n : String) : PipelineTask :=
  ⟨gs n, [], 0, [], none, [], none, none, [], []⟩

/-- A run-state entry with a nil pipeline task. -/
def exNilEntry : ResolvedPipelineTask := ⟨none, [], [], 0⟩

/-- A run-state entry holding `exTask "t1"`. -/
def exSomeEntry : ResolvedPipelineTask := ⟨some (exTask "t1"), [], [], 0⟩

/-- A two-entry state: one nil entry, one real entry. -/
def exStateC9 : PipelineRunState := [exNilEntry, exSomeEntry]

/-- Witness for C9 at a concrete state with a nil first entry. -/
theorem applyTaskResults_nil_entry_guard_witness :
    (exStateC9[0]? = some exNilEntry) ∧
    ((applyTaskResults exStateC9 ⟨[], [], []⟩).length = exStateC9.length ∧
      (applyPipelineTaskStateContext exStateC9 []).length = exStateC9.length ∧
      (exNilEntry.pipelineTask = none →
        (applyTaskResults exStateC9 ⟨[], [], []⟩)[0]? = some exNilEntry ∧
        (applyPipelineTaskStateContext exStateC9 [])[0]? = some exNilEntry) ∧
      (∀ pt, exNilEntry.pipelineTask = some pt →
        (applyTaskResults exStateC9 ⟨[], [], []⟩)[0]? =
          some { exNilEntry with pipelineTask := some (applyResultsToOneTask pt [] [] []) } ∧
        (applyPipelineTaskStateContext exStateC9 [])[0]? =
          some { exNilEntry with pipelineTask := some (applyStateContextToOneTask pt []) })) :=
  ⟨by decide, applyTaskResults_nil_entry_guard exStateC9 ⟨[], [], []⟩ [] 0 exNilEntry (by decide)⟩

/-! ## C6: frame effects of the resolution entry points -/

/-- Erase every task and finally-task display name of a spec. -/
def eraseDisplayNames (p : PipelineSpec) : PipelineSpec :=
  { p with
    tasks := p.tasks.map fun t => { t with displayName := [] }
    finallyTasks := p.finallyTasks.map fun t => { t with displayName := [] } }

/-- A task whose display name references the run name. -/
def exC6Task : PipelineTask :=
  ⟨gs "t", [Tok.ref (gs "context.pipelineRun.name")], 0, [], none, [], none, none, [], []⟩

/-- A one-task spec for the C6 counterexample. -/
def exC6Spec : PipelineSpec := ⟨[], [exC6Task], [], []⟩

/-- A named run for the C6 counterexample. -/
def exC6Run : PipelineRun := ⟨gs "prname", gs "ns", gs "uid", ⟨[], []⟩⟩

/-- C6 counterexample: `ApplyContexts` does NOT leave its input
specification unchanged — it rewrites task display names through the
input pointer before cloning, so the claim fails at this input. -/
theorem applyContexts_mutates_input :
    (applyContexts exC6Spec (gs "pl") exC6Run).1 ≠ exC6Spec := by decide

/-- C6 (amended): `ApplyParameters` and `ApplyWorkspaces` leave the
input spec unchanged and return a fresh substituted clone;
`ApplyContexts` rewrites exactly the display-name fields of its input
in place (everything else is unchanged, as the erasure equality
states) and returns the clone produced by substituting the mutated
input. -/
theorem resolution_frame_effects (p : PipelineSpec) (pr : PipelineRun)
    (pipelineName : GoStr) :
    (applyParameters p pr).1 = p ∧
    (applyWorkspaces p pr).1 = p ∧
    eraseDisplayNames (applyContexts p pipelineName pr).1 = eraseDisplayNames p ∧
    (applyContexts p pipelineName pr).2 =
      applyReplacementsSpec (applyContexts p pipelineName pr).1
        (getContextReplacements pipelineName pr) [] [] ∧
    (applyParameters p pr).2 =
      applyReplacementsSpec p (applyParametersMaps p pr).str
        (applyParametersMaps p pr).arr (applyParametersMaps p pr).obj := by
  refine ⟨rfl, rfl, ?_, rfl, rfl⟩
  simp only [applyContexts, eraseDisplayNames, List.map_map]
  congr 1

/-! ## C7 / C8: matrix resolver counterexamples -/

/-- A param referencing `tasks.b.matrix.r.length`. -/
def exMatrixLenParam (n : String) : Param :=
  ⟨gs n, strVal [Tok.ref (gs "tasks.b.matrix.r.length")]⟩

/-- A consumer task with the given params. -/
def exConsumerTask (ps : List Param) : PipelineTask :=
  ⟨gs "use", [], 0, ps, none, [], none, none, [], []⟩

/-- A run-state entry for task `b` with an empty results cache and no
child runs — its cache computes to empty and result `r` is absent. -/
def exEntryB : ResolvedPipelineTask := ⟨some (exTask "b"), [], [], 0⟩

/-- C7 counterexample: with task `b` present in the run state but
result `r` absent from its (empty) results cache, the matrix resolver
DOES add a replacement key for `tasks.b.matrix.r.length` with value
`"0"`, so the referencing param is substituted to `"0"` instead of
retaining its literal template text — refuting the claim's
result-not-found clause at this input. -/
theorem matrix_missing_result_key_added :
    (applyPipelineTaskContexts (exConsumerTask [exMatrixLenParam "n"]) ⟨none⟩
        ⟨[exEntryB]⟩).map (fun out => out.2.params) =
      some [⟨gs "n", strVal [Tok.lit (gs "0")]⟩] := by decide

/-- C8 counterexample: an entry whose cache computes to empty is
recomputed on every matrix-result-length lookup — two params referencing
`tasks.b.matrix.r.length` drive two cache computations for the same
entry within one call, refuting "computed at most once". -/
theorem results_cache_recomputed_when_empty :
    (applyPipelineTaskContexts (exConsumerTask [exMatrixLenParam "n", exMatrixLenParam "m"])
        ⟨none⟩ ⟨[exEntryB]⟩).map
      (fun out => out.1.state.map ResolvedPipelineTask.cacheComputeCount) = some [2] := by
  decide

/-! ## Key-grammar distinctness lemmas -/

/-- Two appends around the same special character agree componentwise
when neither left part contains that character. -/
theorem clean_append_special_inj (sp : Char) (a b c d : GoStr)
    (ha : sp ∉ a) (hc : sp ∉ c) (h : a ++ sp :: b = c ++ sp :: d) :
    a = c ∧ b = d := by
  induction a generalizing c with
  | nil =>
    cases c with
    | nil => simpa using h
    | cons x c' =>
      exfalso
      simp only [List.nil_append, List.cons_append, List.cons.injEq] at h
      exact hc (h.1 ▸ List.mem_cons_self x c')
  | cons y a' ih =>
    cases c with
    | nil =>
      exfalso
      simp only [List.cons_append, List.nil_append, List.cons.injEq] at h
      exact ha (h.1.symm ▸ List.mem_cons_self y a')
    | cons x c' =>
      simp only [List.cons_append, List.cons.injEq] at h
      have ha' : sp ∉ a' := fun hm => ha (List.mem_cons_of_mem y hm)
      have hc' : sp ∉ c' := fun hm => hc (List.mem_cons_of_mem x hm)
      obtain ⟨h1, h2⟩ := ih c' ha' hc' h.2
      exact ⟨by rw [h.1, h1], h2⟩

theorem matrixLenKey_eq_shape (tn : GoStr) :
    matrixLenKey tn = gs "tasks." ++ (tn ++ '.' :: gs "matrix.length") := by
  simp [matrixLenKey, gs]

theorem matrixResultLenKey_eq_shape (tn rn : GoStr) :
    matrixResultLenKey tn rn =
      gs "tasks." ++ (tn ++ '.' :: (gs "matrix." ++ rn ++ gs ".length")) := by
  simp [matrixResultLenKey, gs]

theorem matrixLenKey_inj {t1 t2 : GoStr} (h : matrixLenKey t1 = matrixLenKey t2) :
    t1 = t2 := by
  rw [matrixLenKey_eq_shape, matrixLenKey_eq_shape] at h
  have h2 := List.append_cancel_left h
  exact List.append_cancel_right h2

theorem matrixResultLenKey_inj {t1 r1 t2 r2 : GoStr}
    (h1 : '.' ∉ t1) (h2 : '.' ∉ t2)
    (h : matrixResultLenKey t1 r1 = matrixResultLenKey t2 r2) : t1 = t2 ∧ r1 = r2 := by
  rw [matrixResultLenKey_eq_shape, matrixResultLenKey_eq_shape] at h
  have h3 := List.append_cancel_left h
  obtain ⟨he, hrest⟩ := clean_append_special_inj '.' t1 _ t2 _ h1 h2 h3
  exact ⟨he, List.append_cancel_left (List.append_cancel_right hrest)⟩

theorem matrixLenKey_ne_matrixResultLenKey {t1 t2 r2 : GoStr}
    (h1 : '.' ∉ t1) (h2 : '.' ∉ t2) : matrixLenKey t1 ≠ matrixResultLenKey t2 r2 := by
  intro h
  rw [matrixLenKey_eq_shape, matrixResultLenKey_eq_shape] at h
  have h3 := List.append_cancel_left h
  obtain ⟨-, hrest⟩ := clean_append_special_inj '.' t1 _ t2 _ h1 h2 h3
  have := congrArg List.length hrest
  simp [gs] at this

theorem retries_key_ne_matrixLenKey (tn : GoStr) :
    gs "context.pipelineTask.retries" ≠ matrixLenKey tn := by
  intro h
  have hshape : matrixLenKey tn = 't' :: (gs "asks." ++ (tn ++ gs ".matrix.length")) := by
    simp [matrixLenKey, gs]
  rw [hshape] at h
  exact absurd (List.head_eq_of_cons_eq h) (by decide)

theorem retries_key_ne_matrixResultLenKey (tn rn : GoStr) :
    gs "context.pipelineTask.retries" ≠ matrixResultLenKey tn rn := by
  intro h
  have hshape : matrixResultLenKey tn rn =
      't' :: (gs "asks." ++ (tn ++ (gs ".matrix." ++ (rn ++ gs ".length")))) := by
    simp [matrixResultLenKey, gs]
  rw [hshape] at h
  exact absurd (List.head_eq_of_cons_eq h) (by decide)

/-! ## Fold lemmas for the matrix resolver -/

theorem foldl_matrixLen_lookup (tasks : List PipelineTask) (repl : SMap) (tn k : GoStr)
    (hk : matrixLenKey tn ≠ k) :
    mapLookup (tasks.foldl (fun r task =>
      if task.name = tn then
        mapInsert r (matrixLenKey tn) [Tok.lit (natToChars (countCombinations task.matrix))]
      else r) repl) k = mapLookup repl k := by
  induction tasks generalizing repl with
  | nil => rfl
  | cons task rest ihh =>
    simp only [List.foldl_cons]
    by_cases hname : task.name = tn
    · rw [if_pos hname, ihh, mapLookup_insert_ne _ _ _ _ hk]
    · rw [if_neg hname, ihh]

theorem matrixLenStep_lookup (prStatus : PipelineRunStatus) (repl : SMap) (tn k : GoStr)
    (hk : matrixLenKey tn ≠ k) :
    mapLookup (matrixLenStep prStatus repl tn) k = mapLookup repl k := by
  cases hs : prStatus.pipelineSpec with
  | none => simp [matrixLenStep, hs]
  | some spec =>
    simp only [matrixLenStep, hs]
    exact foldl_matrixLen_lookup spec.tasks repl tn k hk

theorem foldl_matrixLen_no_match (tasks : List PipelineTask) (repl : SMap) (tn : GoStr)
    (h : ∀ task ∈ tasks, task.name ≠ tn) :
    tasks.foldl (fun r task =>
      if task.name = tn then
        mapInsert r (matrixLenKey tn) [Tok.lit (natToChars (countCombinations task.matrix))]
      else r) repl = repl := by
  induction tasks generalizing repl with
  | nil => rfl
  | cons task rest ihh =>
    simp only [List.foldl_cons]
    rw [if_neg (h task (List.mem_cons_self task rest)),
      ihh repl (fun t ht => h t (List.mem_cons_of_mem task ht))]

theorem matrixLenStep_no_match (prStatus : PipelineRunStatus) (repl : SMap) (tn : GoStr)
    (h : ∀ spec, prStatus.pipelineSpec = some spec → ∀ task ∈ spec.tasks, task.name ≠ tn) :
    matrixLenStep prStatus repl tn = repl := by
  cases hs : prStatus.pipelineSpec with
  | none => simp [matrixLenStep, hs]
  | some spec =>
    simp only [matrixLenStep, hs]
    exact foldl_matrixLen_no_match spec.tasks repl tn (h spec hs)

/-- The per-entry effect of the run-state loop of the matrix resolver:
a matching entry with an empty cache has it computed (bumping the ghost
counter); everything else is untouched. -/
def cacheEntryUpdate (tn : GoStr) (e : ResolvedPipelineTask) : ResolvedPipelineTask :=
  match e.pipelineTask with
  | none => e
  | some pt =>
    if pt.name = tn then
      if e.resultsCache.length = 0 then
        { e with
          resultsCache := createResultsCache e
          cacheComputeCount := e.cacheComputeCount + 1 }
      else e
    else e

theorem cacheEntryUpdate_pipelineTask (tn : GoStr) (e : ResolvedPipelineTask) :
    (cacheEntryUpdate tn e).pipelineTask = e.pipelineTask := by
  obtain ⟨opt, rc, cr, cc⟩ := e
  cases opt with
  | none => rfl
  | some pt =>
    by_cases h1 : pt.name = tn
    · by_cases h2 : rc.length = 0 <;> simp [cacheEntryUpdate, h1, h2]
    · simp [cacheEntryUpdate, h1]

theorem cacheEntryUpdate_childRunResults (tn : GoStr) (e : ResolvedPipelineTask) :
    (cacheEntryUpdate tn e).childRunResults = e.childRunResults := by
  obtain ⟨opt, rc, cr, cc⟩ := e
  cases opt with
  | none => rfl
  | some pt =>
    by_cases h1 : pt.name = tn
    · by_cases h2 : rc.length = 0 <;> simp [cacheEntryUpdate, h1, h2]
    · simp [cacheEntryUpdate, h1]

/-- Characterization of the run-state fold of `ApplyPipelineTaskContexts`:
with no nil entries it never panics, the state is rewritten entrywise by
`cacheEntryUpdate`, and the replacement map changes only at the
matrix-result-length key — and not at all when no entry matches. -/
theorem resultsCacheFold_characterize (tn rn : GoStr) (st : PipelineRunState)
    (repl : SMap) (pre : PipelineRunState)
    (h : ∀ e ∈ st, e.pipelineTask.isSome) :
    ∃ repl', st.foldl (resultsCacheStep tn rn) (some (pre, repl)) =
        some (pre ++ st.map (cacheEntryUpdate tn), repl') ∧
      (∀ k, matrixResultLenKey tn rn ≠ k → mapLookup repl' k = mapLookup repl k) ∧
      ((∀ e ∈ st, ∀ pt, e.pipelineTask = some pt → pt.name ≠ tn) → repl' = repl) := by
  induction st generalizing pre repl with
  | nil => exact ⟨repl, by simp, fun k _ => rfl, fun _ => rfl⟩
  | cons e rest ihh =>
    have hrest : ∀ x ∈ rest, x.pipelineTask.isSome :=
      fun x hx => h x (List.mem_cons_of_mem e hx)
    have hsome := h e (List.mem_cons_self e rest)
    obtain ⟨opt, rc, cr, cc⟩ := e
    obtain ⟨pt, hpt⟩ := Option.isSome_iff_exists.mp hsome
    simp only at hpt
    subst hpt
    by_cases hname : pt.name = tn
    · have hstep : resultsCacheStep tn rn (some (pre, repl)) ⟨some pt, rc, cr, cc⟩ =
          some (pre ++ [cacheEntryUpdate tn ⟨some pt, rc, cr, cc⟩],
            mapInsert repl (matrixResultLenKey tn rn)
              [Tok.lit (natToChars (((mapLookup (if rc.length = 0
                then createResultsCache ⟨some pt, rc, cr, cc⟩ else rc) rn).getD []).length))]) := by
        by_cases hc : rc.length = 0 <;>
          simp [resultsCacheStep, cacheEntryUpdate, hname, hc]
      obtain ⟨repl', hfold, hpres, -⟩ := ihh
        (mapInsert repl (matrixResultLenKey tn rn)
          [Tok.lit (natToChars (((mapLookup (if rc.length = 0
            then createResultsCache ⟨some pt, rc, cr, cc⟩ else rc) rn).getD []).length))])
        (pre ++ [cacheEntryUpdate tn ⟨some pt, rc, cr, cc⟩]) hrest
      refine ⟨repl', ?_, ?_, ?_⟩
      · rw [List.foldl_cons, hstep, hfold]
        simp
      · intro k hk
        rw [hpres k hk, mapLookup_insert_ne _ _ _ _ hk]
      · intro hno
        exact absurd hname (hno ⟨some pt, rc, cr, cc⟩ (List.mem_cons_self _ rest) pt rfl)
    · have hstep : resultsCacheStep tn rn (some (pre, repl)) ⟨some pt, rc, cr, cc⟩ =
          some (pre ++ [(⟨some pt, rc, cr, cc⟩ : ResolvedPipelineTask)], repl) := by
        simp [resultsCacheStep, hname]
      have hupd : cacheEntryUpdate tn ⟨some pt, rc, cr, cc⟩ =
          (⟨some pt, rc, cr, cc⟩ : ResolvedPipelineTask) := by
        simp [cacheEntryUpdate, hname]
      obtain ⟨repl', hfold, hpres, hno⟩ := ihh repl
        (pre ++ [(⟨some pt, rc, cr, cc⟩ : ResolvedPipelineTask)]) hrest
      refine ⟨repl', ?_, hpres, ?_⟩
      · rw [List.foldl_cons, hstep, hfold]
        simp [hupd]
      · intro hnone
        exact hno (fun x hx pt' hpt' => hnone x (List.mem_cons_of_mem _ hx) pt' hpt')

/-- Step totality and invariant preservation lifted over the filtered
params fold of `ApplyPipelineTaskContexts`. -/
theorem taskContextFold_invariant (prStatus : PipelineRunStatus)
    (P : PipelineRunState → SMap → Prop)
    (hstep : ∀ st repl p, P st repl →
      ∃ st' repl', taskContextParamStep prStatus (some (st, repl)) p = some (st', repl') ∧
        P st' repl')
    (ps : List Param) (st0 : PipelineRunState) (repl0 : SMap) (h0 : P st0 repl0) :
    ∃ st repl, ps.foldl (taskContextParamStep prStatus) (some (st0, repl0)) =
      some (st, repl) ∧ P st repl := by
  induction ps generalizing st0 repl0 with
  | nil => exact ⟨st0, repl0, rfl, h0⟩
  | cons p rest ihh =>
    obtain ⟨st1, repl1, hs, hP⟩ := hstep st0 repl0 p h0
    obtain ⟨st, repl, hfold, hPf⟩ := ihh st1 repl1 hP
    exact ⟨st, repl, by rw [List.foldl_cons, hs, hfold], hPf⟩

theorem taskContextParamStep_eq (prStatus : PipelineRunStatus)
    (st : PipelineRunState) (repl : SMap) (p : Param) :
    taskContextParamStep prStatus (some (st, repl)) p =
      (if (p.parseTaskandResultName).1 ≠ [] ∧ (p.parseTaskandResultName).2 ≠ [] then
        st.foldl
          (resultsCacheStep (p.parseTaskandResultName).1 (p.parseTaskandResultName).2)
          (some (([] : PipelineRunState),
            if (p.parseTaskandResultName).1 ≠ [] then
              matrixLenStep prStatus repl (p.parseTaskandResultName).1
            else repl))
      else
        some (st,
          if (p.parseTaskandResultName).1 ≠ [] then
            matrixLenStep prStatus repl (p.parseTaskandResultName).1
          else repl)) := rfl

/-- C7 (amended): when the producing task of a matrix-length reference
is not found — not in the status pipeline spec and not in the run
state — no replacement key is added for either matrix-length form, so a
referencing field keeps its literal template text and the resolver
returns normally.  When the producing task IS found in the run state
but the named result is absent from its cache, a matrix-result-length
key with value `"0"` is added instead (final conjunct, at the concrete
input of the counterexample). -/
theorem matrix_unresolved_reference_behavior
    (pt : PipelineTask) (prStatus : PipelineRunStatus) (facts : PipelineRunFacts)
    (tn rn : GoStr) (htn : '.' ∉ tn)
    (hstate : ∀ e ∈ facts.state, ∃ pt', e.pipelineTask = some pt' ∧
      '.' ∉ pt'.name ∧ pt'.name ≠ tn)
    (hspecTasks : ∀ spec, prStatus.pipelineSpec = some spec →
      ∀ task ∈ spec.tasks, '.' ∉ task.name ∧ task.name ≠ tn) :
    ∃ st repl, taskContextFold pt prStatus facts = some (st, repl) ∧
      mapLookup repl (matrixLenKey tn) = none ∧
      mapLookup repl (matrixResultLenKey tn rn) = none ∧
      substTmpl repl [Tok.ref (matrixLenKey tn)] = [Tok.ref (matrixLenKey tn)] ∧
      substTmpl repl [Tok.ref (matrixResultLenKey tn rn)] =
        [Tok.ref (matrixResultLenKey tn rn)] ∧
      (applyPipelineTaskContexts pt prStatus facts).isSome ∧
      (taskContextFold (exConsumerTask [exMatrixLenParam "n"]) ⟨none⟩ ⟨[exEntryB]⟩).map
          (fun sr => mapLookup sr.2 (matrixResultLenKey (gs "b") (gs "r"))) =
        some (some [Tok.lit (gs "0")]) := by
  have hmain := taskContextFold_invariant prStatus
    (fun st repl =>
      (∀ e ∈ st, ∃ pt', e.pipelineTask = some pt' ∧ '.' ∉ pt'.name ∧ pt'.name ≠ tn) ∧
      mapLookup repl (matrixLenKey tn) = none ∧
      mapLookup repl (matrixResultLenKey tn rn) = none)
    ?step (filterMatrixContextVar pt.params) facts.state
    [(gs "context.pipelineTask.retries", [Tok.lit (natToChars pt.retries)])]
    ⟨hstate, ?k10, ?k20⟩
  case k10 =>
    simp only [mapLookup]
    rw [if_neg (retries_key_ne_matrixLenKey tn)]
  case k20 =>
    simp only [mapLookup]
    rw [if_neg (retries_key_ne_matrixResultLenKey tn rn)]
  case step =>
    intro st repl p hP
    obtain ⟨hstP, hk1, hk2⟩ := hP
    rw [taskContextParamStep_eq]
    -- the replacement map after the matrix-length loop
    have hrepl1 : mapLookup (if (p.parseTaskandResultName).1 ≠ [] then
        matrixLenStep prStatus repl (p.parseTaskandResultName).1 else repl)
          (matrixLenKey tn) = none ∧
        mapLookup (if (p.parseTaskandResultName).1 ≠ [] then
          matrixLenStep prStatus repl (p.parseTaskandResultName).1 else repl)
            (matrixResultLenKey tn rn) = none := by
      by_cases htn' : (p.parseTaskandResultName).1 ≠ []
      · rw [if_pos htn']
        by_cases hex : ∃ spec, prStatus.pipelineSpec = some spec ∧
            ∃ task ∈ spec.tasks, task.name = (p.parseTaskandResultName).1
        · obtain ⟨spec, hs, task, htask, htname⟩ := hex
          obtain ⟨hcl, hne⟩ := hspecTasks spec hs task htask
          rw [htname] at hcl hne
          constructor
          · rw [matrixLenStep_lookup]
            · exact hk1
            · exact fun h => hne (matrixLenKey_inj h)
          · rw [matrixLenStep_lookup]
            · exact hk2
            · exact matrixLenKey_ne_matrixResultLenKey hcl htn
        · push_neg at hex
          rw [matrixLenStep_no_match]
          · exact ⟨hk1, hk2⟩
          · intro spec hs task htask
            exact hex spec hs task htask
      · rw [if_neg htn']
        exact ⟨hk1, hk2⟩
    by_cases hcond : (p.parseTaskandResultName).1 ≠ [] ∧ (p.parseTaskandResultName).2 ≠ []
    · rw [if_pos hcond]
      have hsome : ∀ e ∈ st, e.pipelineTask.isSome := by
        intro e he
        obtain ⟨pt', hpt', -, -⟩ := hstP e he
        simp [hpt']
      obtain ⟨repl2, hfold, hpres, hnomatch⟩ :=
        resultsCacheFold_characterize (p.parseTaskandResultName).1
          (p.parseTaskandResultName).2 st _ [] hsome
      refine ⟨st.map (cacheEntryUpdate (p.parseTaskandResultName).1), repl2,
        by rw [hfold]; simp, ?_, ?_, ?_⟩
      · intro e he
        obtain ⟨x, hx, hxe⟩ := List.mem_map.mp he
        obtain ⟨pt', hpt', hclx, hnex⟩ := hstP x hx
        refine ⟨pt', ?_, hclx, hnex⟩
        rw [← hxe, cacheEntryUpdate_pipelineTask, hpt']
      · by_cases hexe : ∃ e ∈ st, ∃ pt', e.pipelineTask = some pt' ∧
            pt'.name = (p.parseTaskandResultName).1
        · obtain ⟨e, he, pt', hpt', hname'⟩ := hexe
          obtain ⟨pt'', hpt'', hcl, hne⟩ := hstP e he
          rw [hpt''] at hpt'
          obtain rfl : pt'' = pt' := by injection hpt'
          rw [hname'] at hcl hne
          rw [hpres _ ?hne1]
          · exact hrepl1.1
          case hne1 =>
            exact Ne.symm (Ne.symm (fun h =>
              absurd (matrixLenKey_ne_matrixResultLenKey htn hcl) (fun hx => hx h.symm)))
        · push_neg at hexe
          rw [hnomatch (fun e he pt' hpt' => hexe e he pt' hpt')]
          exact hrepl1.1
      · by_cases hexe : ∃ e ∈ st, ∃ pt', e.pipelineTask = some pt' ∧
            pt'.name = (p.parseTaskandResultName).1
        · obtain ⟨e, he, pt', hpt', hname'⟩ := hexe
          obtain ⟨pt'', hpt'', hcl, hne⟩ := hstP e he
          rw [hpt''] at hpt'
          obtain rfl : pt'' = pt' := by injection hpt'
          rw [hname'] at hcl hne
          rw [hpres _ ?hne2]
          · exact hrepl1.2
          case hne2 =>
            intro h
            exact hne (matrixResultLenKey_inj hcl htn h).1
        · push_neg at hexe
          rw [hnomatch (fun e he pt' hpt' => hexe e he pt' hpt')]
          exact hrepl1.2
    · rw [if_neg hcond]
      exact ⟨st, _, rfl, hstP, hrepl1.1, hrepl1.2⟩
  obtain ⟨st, repl, hfold, hstf, hr1, hr2⟩ := hmain
  have hfold' : taskContextFold pt prStatus facts = some (st, repl) := hfold
  refine ⟨st, repl, hfold', hr1, hr2, ?_, ?_, ?_, by decide⟩
  · exact substTmpl_no_match repl _ (by intro e he; simp [tmplRefs] at he; rw [he]; exact hr1)
  · exact substTmpl_no_match repl _ (by intro e he; simp [tmplRefs] at he; rw [he]; exact hr2)
  · rw [applyPipelineTaskContexts, hfold']
    rfl

/-- A consumer task referencing matrix lengths of the absent task `zz`. -/
def exW7Pt : PipelineTask :=
  exConsumerTask [⟨gs "w", strVal [Tok.ref (gs "tasks.zz.matrix.qq.length")]⟩]

/-- Witness for C7 (amended) at a concrete input where no task is
named `zz`. -/
theorem matrix_unresolved_reference_behavior_witness :
    ('.' ∉ gs "zz") ∧
    (∃ st repl, taskContextFold exW7Pt ⟨none⟩ ⟨[exEntryB]⟩ = some (st, repl) ∧
      mapLookup repl (matrixLenKey (gs "zz")) = none ∧
      mapLookup repl (matrixResultLenKey (gs "zz") (gs "qq")) = none ∧
      substTmpl repl [Tok.ref (matrixLenKey (gs "zz"))] =
        [Tok.ref (matrixLenKey (gs "zz"))] ∧
      substTmpl repl [Tok.ref (matrixResultLenKey (gs "zz") (gs "qq"))] =
        [Tok.ref (matrixResultLenKey (gs "zz") (gs "qq"))] ∧
      (applyPipelineTaskContexts exW7Pt ⟨none⟩ ⟨[exEntryB]⟩).isSome ∧
      (taskContextFold (exConsumerTask [exMatrixLenParam "n"]) ⟨none⟩ ⟨[exEntryB]⟩).map
          (fun sr => mapLookup sr.2 (matrixResultLenKey (gs "b") (gs "r"))) =
        some (some [Tok.lit (gs "0")])) :=
  ⟨by decide,
    matrix_unresolved_reference_behavior exW7Pt ⟨none⟩ ⟨[exEntryB]⟩ (gs "zz") (gs "qq")
      (by decide)
      (by
        intro e he
        simp only [List.mem_singleton] at he
        subst he
        exact ⟨exTask "b", rfl, by decide, by decide⟩)
      (fun spec h => nomatch h)⟩

/-! ## C8 (amended): the results cache is computed at most once per
entry, provided it does not compute to empty -/

/-- Relation between an original run-state entry and its state after
any number of matrix-resolver cache updates within one call. -/
def EntryInv (e0 e : ResolvedPipelineTask) : Prop :=
  e.pipelineTask = e0.pipelineTask ∧ e.childRunResults = e0.childRunResults ∧
    ((e.resultsCache = e0.resultsCache ∧ e.cacheComputeCount = e0.cacheComputeCount) ∨
     (e.resultsCache = createResultsCache e0 ∧ e0.resultsCache = [] ∧
       (createResultsCache e0 ≠ [] → e.cacheComputeCount = e0.cacheComputeCount + 1)))

theorem createResultsCache_congr {e e0 : ResolvedPipelineTask}
    (h : e.childRunResults = e0.childRunResults) :
    createResultsCache e = createResultsCache e0 := by
  unfold createResultsCache
  rw [h]

theorem entryInv_cacheEntryUpdate (tn : GoStr) {e0 e : ResolvedPipelineTask}
    (h : EntryInv e0 e) : EntryInv e0 (cacheEntryUpdate tn e) := by
  obtain ⟨hpt, hchild, hdisj⟩ := h
  obtain ⟨opt, rc, cr, cc⟩ := e
  cases opt with
  | none => exact ⟨hpt, hchild, hdisj⟩
  | some pt =>
    by_cases h1 : pt.name = tn
    · by_cases h2 : rc.length = 0
      · have hrc : rc = [] := List.length_eq_zero.mp h2
        have hupd : cacheEntryUpdate tn ⟨some pt, rc, cr, cc⟩ =
            ⟨some pt, createResultsCache ⟨some pt, rc, cr, cc⟩, cr, cc + 1⟩ := by
          simp [cacheEntryUpdate, h1, h2]
        rw [hupd]
        simp only at hpt hchild hdisj ⊢
        have hcreate : createResultsCache ⟨some pt, rc, cr, cc⟩ = createResultsCache e0 :=
          createResultsCache_congr hchild
        refine ⟨hpt, hchild, Or.inr ⟨hcreate, ?_, ?_⟩⟩
        · rcases hdisj with ⟨hc, -⟩ | ⟨-, hc0, -⟩
          · rw [← hc, hrc]
          · exact hc0
        · intro hne
          rcases hdisj with ⟨-, hcc⟩ | ⟨hc, -, -⟩
          · rw [hcc]
          · exact absurd (hc.symm.trans hrc) hne
      · have hupd : cacheEntryUpdate tn ⟨some pt, rc, cr, cc⟩ =
            (⟨some pt, rc, cr, cc⟩ : ResolvedPipelineTask) := by
          simp [cacheEntryUpdate, h1, h2]
        rw [hupd]
        exact ⟨hpt, hchild, hdisj⟩
    · have hupd : cacheEntryUpdate tn ⟨some pt, rc, cr, cc⟩ =
          (⟨some pt, rc, cr, cc⟩ : ResolvedPipelineTask) := by
        simp [cacheEntryUpdate, h1]
      rw [hupd]
      exact ⟨hpt, hchild, hdisj⟩

/-- C8 (amended): within one `ApplyPipelineTaskContexts` call, each
run-state entry's results cache is computed at most once — once
populated, later matrix-result-length lookups reuse the stored cache —
provided the computed cache is nonempty (or a cache was already
stored); an entry whose cache computes to empty is recomputed on each
lookup (`EntryInv` still pins its value), as the counterexample shows. -/
theorem results_cache_computed_at_most_once
    (pt : PipelineTask) (prStatus : PipelineRunStatus) (facts : PipelineRunFacts)
    (hstate : ∀ e ∈ facts.state, e.pipelineTask.isSome) :
    ∃ out, applyPipelineTaskContexts pt prStatus facts = some out ∧
      out.1.state.length = facts.state.length ∧
      ∀ (i : Nat) e0 e, facts.state[i]? = some e0 → out.1.state[i]? = some e →
        EntryInv e0 e ∧
          ((createResultsCache e0 ≠ [] ∨ e0.resultsCache ≠ []) →
            e.cacheComputeCount ≤ e0.cacheComputeCount + 1) := by
  have hmain := taskContextFold_invariant prStatus
    (fun st _ => st.length = facts.state.length ∧
      ∀ (i : Nat) e0 e, facts.state[i]? = some e0 → st[i]? = some e → EntryInv e0 e)
    ?step (filterMatrixContextVar pt.params) facts.state
    [(gs "context.pipelineTask.retries", [Tok.lit (natToChars pt.retries)])]
    ⟨rfl, ?init⟩
  case init =>
    intro i e0 e h1 h2
    rw [h1] at h2
    obtain rfl : e0 = e := by injection h2
    exact ⟨rfl, rfl, Or.inl ⟨rfl, rfl⟩⟩
  case step =>
    intro st repl p hP
    obtain ⟨hlen, hinv⟩ := hP
    have hsome : ∀ e ∈ st, e.pipelineTask.isSome := by
      intro e he
      obtain ⟨i, hi, hig⟩ := List.getElem_of_mem he
      have hi0 : i < facts.state.length := by rw [← hlen]; exact hi
      have h2 : st[i]? = some e := by rw [List.getElem?_eq_getElem hi, hig]
      have h1 : facts.state[i]? = some facts.state[i] := List.getElem?_eq_getElem hi0
      have := (hinv i _ e h1 h2).1
      rw [this]
      exact hstate _ (List.getElem_mem hi0)
    rw [taskContextParamStep_eq]
    by_cases hcond : (p.parseTaskandResultName).1 ≠ [] ∧ (p.parseTaskandResultName).2 ≠ []
    · rw [if_pos hcond]
      obtain ⟨repl2, hfold, -, -⟩ :=
        resultsCacheFold_characterize (p.parseTaskandResultName).1
          (p.parseTaskandResultName).2 st _ [] hsome
      refine ⟨_, repl2, by rw [hfold], by simpa using hlen, ?_⟩
      intro i e0 e h1 h2
      rw [List.nil_append] at h2
      rw [List.getElem?_map] at h2
      cases hst : st[i]? with
      | none => rw [hst] at h2; exact absurd h2 (by simp)
      | some x =>
        rw [hst] at h2
        obtain rfl : cacheEntryUpdate (p.parseTaskandResultName).1 x = e := by
          injection h2
        exact entryInv_cacheEntryUpdate _ (hinv i e0 x h1 hst)
    · rw [if_neg hcond]
      exact ⟨st, _, rfl, hlen, hinv⟩
  obtain ⟨st, repl, hfold, hlen, hinv⟩ := hmain
  have hfold' : taskContextFold pt prStatus facts = some (st, repl) := hfold
  cases happ : applyPipelineTaskContexts pt prStatus facts with
  | none =>
    exfalso
    rw [applyPipelineTaskContexts, hfold'] at happ
    simp at happ
  | some out =>
    rw [applyPipelineTaskContexts, hfold'] at happ
    simp only [Option.bind_eq_bind, Option.some_bind, Option.some.injEq] at happ
    refine ⟨out, rfl, ?_, ?_⟩
    · rw [← happ]
      exact hlen
    · intro i e0 e h1 h2
      rw [← happ] at h2
      have hinv' := hinv i e0 e h1 h2
      refine ⟨hinv', ?_⟩
      intro hne
      rcases hinv'.2.2 with ⟨-, hcc⟩ | ⟨-, hc0, hcond⟩
      · omega
      · rcases hne with hne | hne
        · rw [hcond hne]
        · exact absurd hc0 hne

/-- Witness for C8 (amended) at a concrete input. -/
theorem results_cache_computed_at_most_once_witness :
    (∀ e ∈ ([exEntryB] : PipelineRunState), e.pipelineTask.isSome) ∧
    (∃ out, applyPipelineTaskContexts (exConsumerTask [exMatrixLenParam "n"]) ⟨none⟩
        ⟨[exEntryB]⟩ = some out ∧
      out.1.state.length = ([exEntryB] : PipelineRunState).length ∧
      ∀ (i : Nat) e0 e, ([exEntryB] : PipelineRunState)[i]? = some e0 →
        out.1.state[i]? = some e →
        EntryInv e0 e ∧ ((createResultsCache e0 ≠ [] ∨ e0.resultsCache ≠ []) →
          e.cacheComputeCount ≤ e0.cacheComputeCount + 1)) :=
  ⟨by decide,
    results_cache_computed_at_most_once (exConsumerTask [exMatrixLenParam "n"]) ⟨none⟩
      ⟨[exEntryB]⟩ (by decide)⟩

/-! ## C3: run-supplied parameter values override declared defaults -/

/-- A Go map never holds two entries for one key. -/
def NodupKeys {α : Type} (m : List (GoStr × α)) : Prop := (mapKeys m).Nodup

theorem mapKeys_cons {α : Type} (p : GoStr × α) (tl : List (GoStr × α)) :
    mapKeys (p :: tl) = p.1 :: mapKeys tl := rfl

theorem mapLookup_eq_none_of_not_mem {α : Type} (m : List (GoStr × α)) (k : GoStr)
    (h : k ∉ mapKeys m) : mapLookup m k = none := by
  induction m with
  | nil => rfl
  | cons hd tl ih =>
    rw [mapKeys_cons, List.mem_cons] at h
    push_neg at h
    obtain ⟨hk, hv⟩ := hd
    rw [mapLookup, if_neg (fun hh => h.1 hh.symm)]
    exact ih h.2

theorem mem_mapKeys_of_lookup {α : Type} (m : List (GoStr × α)) (k : GoStr) (v : α)
    (h : mapLookup m k = some v) : k ∈ mapKeys m := by
  by_contra hmem
  rw [mapLookup_eq_none_of_not_mem m k hmem] at h
  exact Option.noConfusion h

theorem mapKeys_insert {α : Type} (m : List (GoStr × α)) (k : GoStr) (v : α) :
    mapKeys (mapInsert m k v) =
      if k ∈ mapKeys m then mapKeys m else mapKeys m ++ [k] := by
  induction m with
  | nil => simp [mapInsert, mapKeys]
  | cons hd tl ih =>
    obtain ⟨hk, hv⟩ := hd
    simp only [mapInsert]
    by_cases h1 : hk = k
    · rw [if_pos h1, mapKeys_cons, mapKeys_cons,
        if_pos (List.mem_cons.mpr (Or.inl h1.symm))]
    · rw [if_neg h1, mapKeys_cons, mapKeys_cons, ih]
      by_cases h2 : k ∈ mapKeys tl
      · rw [if_pos h2, if_pos (List.mem_cons.mpr (Or.inr h2))]
      · rw [if_neg h2,
          if_neg (by
            rw [List.mem_cons]
            push_neg
            exact ⟨fun hh => h1 hh.symm, h2⟩)]
        rw [List.cons_append]
      
theorem nodupKeys_insert {α : Type} (m : List (GoStr × α)) (k : GoStr) (v : α)
    (h : NodupKeys m) : NodupKeys (mapInsert m k v) := by
  unfold NodupKeys at h ⊢
  rw [mapKeys_insert]
  by_cases h2 : k ∈ mapKeys m
  · rw [if_pos h2]
    exact h
  · rw [if_neg h2, List.nodup_append]
    exact ⟨h, List.nodup_singleton k,
      fun a ha hb => h2 (by rwa [show a = k from by simpa using hb] at ha)⟩

/-- Lookups under keys absent from the overlaid entries pass through. -/
theorem foldl_insert_lookup_not_mem {α : Type} (ext : List (GoStr × α))
    (m0 : List (GoStr × α)) (k : GoStr) (h : k ∉ mapKeys ext) :
    mapLookup (ext.foldl (fun m kv => mapInsert m kv.1 kv.2) m0) k = mapLookup m0 k := by
  induction ext generalizing m0 with
  | nil => rfl
  | cons hd tl ih =>
    rw [mapKeys_cons, List.mem_cons] at h
    push_neg at h
    rw [List.foldl_cons, ih _ h.2]
    exact mapLookup_insert_ne _ _ _ _ (fun hh => h.1 hh.symm)

/-- The Go overwrite loop: an entry present in the overlaid map wins. -/
theorem foldl_insert_lookup_mem {α : Type} (ext : List (GoStr × α))
    (m0 : List (GoStr × α)) (k : GoStr) (v : α) (hnd : NodupKeys ext)
    (h : mapLookup ext k = some v) :
    mapLookup (ext.foldl (fun m kv => mapInsert m kv.1 kv.2) m0) k = some v := by
  induction ext generalizing m0 with
  | nil => exact Option.noConfusion h
  | cons hd tl ih =>
    obtain ⟨hk, hv⟩ := hd
    unfold NodupKeys at hnd
    rw [mapKeys_cons, List.nodup_cons] at hnd
    rw [mapLookup] at h
    by_cases h1 : hk = k
    · subst h1
      obtain rfl : hv = v := by
        rw [if_pos rfl] at h
        injection h
      rw [List.foldl_cons, foldl_insert_lookup_not_mem tl _ hk hnd.1]
      exact mapLookup_insert_self m0 hk hv
    · rw [if_neg h1] at h
      rw [List.foldl_cons]
      exact ih _ hnd.2 h

/-- The overlay lookup law: run entries win, defaults fill the rest. -/
theorem foldl_insert_lookup {α : Type} (ext : List (GoStr × α))
    (m0 : List (GoStr × α)) (k : GoStr) (hnd : NodupKeys ext) :
    mapLookup (ext.foldl (fun m kv => mapInsert m kv.1 kv.2) m0) k =
      match mapLookup ext k with
      | some v => some v
      | none => mapLookup m0 k := by
  cases hl : mapLookup ext k with
  | some v => exact foldl_insert_lookup_mem ext m0 k v hnd hl
  | none =>
    refine foldl_insert_lookup_not_mem ext m0 k ?_
    intro hmem
    clear hnd
    induction ext with
    | nil => simp [mapKeys] at hmem
    | cons hd tl ih =>
      obtain ⟨hk, hv⟩ := hd
      rw [mapKeys_cons, List.mem_cons] at hmem
      rw [mapLookup] at hl
      by_cases h1 : hk = k
      · rw [if_pos h1] at hl
        exact Option.noConfusion hl
      · rw [if_neg h1] at hl
        rcases hmem with hmem | hmem
        · exact h1 hmem.symm
        · exact ih hl hmem

/-- A fold of keyed inserts over a component-respecting loop body acts
on the string component alone. -/
theorem rmaps_fold_str {β : Type} (l : List β) (ms : RMaps)
    (f : β → GoStr) (g : β → Tmpl) :
    l.foldl (fun ms2 x => { ms2 with str := mapInsert ms2.str (f x) (g x) }) ms =
      { ms with str := l.foldl (fun m x => mapInsert m (f x) (g x)) ms.str } := by
  induction l generalizing ms with
  | nil => rfl
  | cons x rest ih => rw [List.foldl_cons, List.foldl_cons, ih]

theorem nodupKeys_foldl_insert {β α : Type} (l : List β) (m : List (GoStr × α))
    (f : β → GoStr) (g : β → α) (h : NodupKeys m) :
    NodupKeys (l.foldl (fun m2 x => mapInsert m2 (f x) (g x)) m) := by
  induction l generalizing m with
  | nil => exact h
  | cons x rest ih =>
    rw [List.foldl_cons]
    exact ih _ (nodupKeys_insert _ _ _ h)

/-- Seeding one parameter value keeps all three maps free of duplicate
keys. -/
theorem seedParamValue_nodup (ms : RMaps) (name : GoStr) (v : ParamValue)
    (h : NodupKeys ms.str ∧ NodupKeys ms.arr ∧ NodupKeys ms.obj) :
    NodupKeys (seedParamValue ms name v).str ∧
      NodupKeys (seedParamValue ms name v).arr ∧
      NodupKeys (seedParamValue ms name v).obj := by
  obtain ⟨h1, h2, h3⟩ := h
  unfold seedParamValue
  cases v.type with
  | string =>
    simp only [paramPatterns, List.foldl_cons, List.foldl_nil]
    exact ⟨nodupKeys_insert _ _ _ (nodupKeys_insert _ _ _ (nodupKeys_insert _ _ _ h1)),
      h2, h3⟩
  | array =>
    simp only [paramPatterns, List.foldl_cons, List.foldl_nil]
    rw [rmaps_fold_str (List.range v.arrayVal.length) ms
      (fun i => patDot name ++ idxSuffix i) (fun i => v.arrayVal.getD i [])]
    rw [rmaps_fold_str (List.range v.arrayVal.length) _
      (fun i => patQuote name ++ idxSuffix i) (fun i => v.arrayVal.getD i [])]
    rw [rmaps_fold_str (List.range v.arrayVal.length) _
      (fun i => patApos name ++ idxSuffix i) (fun i => v.arrayVal.getD i [])]
    refine ⟨?_, ?_, h3⟩
    · exact nodupKeys_foldl_insert _ _ _ _
        (nodupKeys_foldl_insert _ _ _ _ (nodupKeys_foldl_insert _ _ _ _ h1))
    · exact nodupKeys_insert _ _ _ (nodupKeys_insert _ _ _ (nodupKeys_insert _ _ _ h2))
  | object =>
    simp only [paramPatterns, List.foldl_cons, List.foldl_nil]
    rw [rmaps_fold_str v.objectVal _ (fun kv => objAttrKey name kv.1) (fun kv => kv.2)]
    exact ⟨nodupKeys_foldl_insert _ _ _ _ h1, h2,
      nodupKeys_insert _ _ _ (nodupKeys_insert _ _ _ (nodupKeys_insert _ _ _ h3))⟩

/-- The run-supplied replacement maps have no duplicate keys. -/
theorem paramsFromPipelineRun_nodup (pr : PipelineRun) :
    NodupKeys (paramsFromPipelineRun pr).str ∧
      NodupKeys (paramsFromPipelineRun pr).arr ∧
      NodupKeys (paramsFromPipelineRun pr).obj := by
  unfold paramsFromPipelineRun
  generalize hms : RMaps.empty = ms
  have h0 : NodupKeys ms.str ∧ NodupKeys ms.arr ∧ NodupKeys ms.obj := by
    rw [← hms]
    exact ⟨List.nodup_nil, List.nodup_nil, List.nodup_nil⟩
  clear hms
  induction pr.spec.params generalizing ms with
  | nil => exact h0
  | cons p rest ih =>
    rw [List.foldl_cons]
    exact ih _ (seedParamValue_nodup ms p.name p.value h0)

/-- C3: run-supplied parameter values always override declared defaults.
Every entry of the run-supplied replacement maps survives verbatim into
the maps `ApplyParameters` substitutes with, whatever the declared
defaults seeded there (the Go overwrite loop wins), with no type
coercion and no error — a run entry lands in the map its own type tag
selected, even when the default had a different type — and the returned
spec is exactly the substitution of the pipeline spec by those final
maps. -/
theorem run_params_override_defaults (p : PipelineSpec) (pr : PipelineRun) :
    (∀ k v, mapLookup (paramsFromPipelineRun pr).str k = some v →
      mapLookup (applyParametersMaps p pr).str k = some v) ∧
    (∀ k v, mapLookup (paramsFromPipelineRun pr).arr k = some v →
      mapLookup (applyParametersMaps p pr).arr k = some v) ∧
    (∀ k v, mapLookup (paramsFromPipelineRun pr).obj k = some v →
      mapLookup (applyParametersMaps p pr).obj k = some v) ∧
    applyParameters p pr =
      (p, applyReplacementsSpec p (applyParametersMaps p pr).str
        (applyParametersMaps p pr).arr (applyParametersMaps p pr).obj) := by
  obtain ⟨hnd1, hnd2, hnd3⟩ := paramsFromPipelineRun_nodup pr
  refine ⟨?_, ?_, ?_, rfl⟩
  · intro k v h
    exact foldl_insert_lookup_mem _ _ k v hnd1 h
  · intro k v h
    exact foldl_insert_lookup_mem _ _ k v hnd2 h
  · intro k v h
    exact foldl_insert_lookup_mem _ _ k v hnd3 h

/-- Spec for the C3 witness: a declared array-typed default. -/
def exC3Spec : PipelineSpec :=
  ⟨[⟨gs "size", some (arrVal [litT "a", litT "b"])⟩], [], [], []⟩

/-- Run for the C3 witness: the same name supplied as a string. -/
def exC3Run : PipelineRun :=
  ⟨gs "pr", gs "ns", gs "u", ⟨[⟨gs "size", strVal (litT "big")⟩], []⟩⟩

/-- Witness for C3: the string-typed run value for `size` wins in the
string map even though the declared default is array-typed (which
stays, untouched, in the array map) — no coercion, no error. -/
theorem run_params_override_defaults_witness :
    mapLookup (paramsFromPipelineRun exC3Run).str (patDot (gs "size")) =
      some (litT "big") ∧
    mapLookup (applyParametersMaps exC3Spec exC3Run).str (patDot (gs "size")) =
      some (litT "big") ∧
    mapLookup (applyParametersMaps exC3Spec exC3Run).arr (patDot (gs "size")) =
      some [litT "a", litT "b"] :=
  ⟨by decide,
    (run_params_override_defaults exC3Spec exC3Run).1 (patDot (gs "size")) (litT "big")
      (by decide),
    by decide⟩

/-! ## C4: the three parameter addressing forms -/

/-- A parameter name free of the structural characters of the key
grammar (dots and brackets). -/
def cleanName (n : GoStr) : Prop := '.' ∉ n ∧ '[' ∉ n

instance (n : GoStr) : Decidable (cleanName n) := by
  unfold cleanName; infer_instance

theorem ne_of_mem_not_mem {c : Char} {a b : GoStr} (h1 : c ∈ a) (h2 : c ∉ b) :
    a ≠ b := fun h => h2 (h ▸ h1)

theorem params_dot_ne_quote (x y : GoStr) : gs "params." ++ x ≠ gs "params[\"" ++ y := by
  intro h
  have h1 : (gs "params." ++ x).get? 6 = some '.' := rfl
  rw [h] at h1
  have h2 : (gs "params[\"" ++ y).get? 6 = some '[' := rfl
  exact absurd (h1.symm.trans h2) (by decide)

theorem params_dot_ne_apos (x y : GoStr) : gs "params." ++ x ≠ gs "params['" ++ y := by
  intro h
  have h1 : (gs "params." ++ x).get? 6 = some '.' := rfl
  rw [h] at h1
  have h2 : (gs "params['" ++ y).get? 6 = some '[' := rfl
  exact absurd (h1.symm.trans h2) (by decide)

theorem params_quote_ne_apos (x y : GoStr) : gs "params[\"" ++ x ≠ gs "params['" ++ y := by
  intro h
  have h1 : (gs "params[\"" ++ x).get? 7 = some '"' := rfl
  rw [h] at h1
  have h2 : (gs "params['" ++ y).get? 7 = some '\'' := rfl
  exact absurd (h1.symm.trans h2) (by decide)

theorem natToCharsAux_digits (fuel n : Nat) :
    ∀ c ∈ natToCharsAux fuel n, ∃ d, d < 10 ∧ c = digitChar d := by
  induction fuel generalizing n with
  | zero => intro c hc; simp [natToCharsAux] at hc
  | succ fuel ih =>
    intro c hc
    rw [natToCharsAux] at hc
    by_cases h : n < 10
    · rw [if_pos h] at hc
      simp at hc
      exact ⟨n, h, hc⟩
    · rw [if_neg h] at hc
      rcases List.mem_append.mp hc with hc | hc
      · exact ih _ c hc
      · simp at hc
        exact ⟨n % 10, Nat.mod_lt _ (by omega), hc⟩

theorem digitChar_not_special : ∀ d, d < 10 →
    digitChar d ≠ '.' ∧ digitChar d ≠ '[' ∧ digitChar d ≠ ']' := by decide

theorem natToChars_no_dot (n : Nat) : '.' ∉ natToChars n := by
  intro hmem
  obtain ⟨d, hd, hc⟩ := natToCharsAux_digits _ _ _ hmem
  exact (digitChar_not_special d hd).1 hc.symm

theorem idxSuffix_no_dot (i : Nat) : '.' ∉ idxSuffix i := by
  intro h
  rcases List.mem_cons.mp h with h | h
  · exact absurd h (by decide)
  · rcases List.mem_append.mp h with h | h
    · exact natToChars_no_dot i h
    · simp at h

theorem lbracket_mem_idxSuffix (i : Nat) : '[' ∈ idxSuffix i :=
  List.mem_cons_self _ _

/-! Key shapes: every parameter key is one of three fixed prefixes
followed by a payload. -/

theorem patDot_def (n : GoStr) : patDot n = gs "params." ++ n := rfl

theorem patDot_append (n s : GoStr) : patDot n ++ s = gs "params." ++ (n ++ s) := by
  simp [patDot]

theorem patQuote_shape (n : GoStr) : patQuote n = gs "params[\"" ++ (n ++ gs "\"]") := by
  simp [patQuote]

theorem patQuote_append (n s : GoStr) :
    patQuote n ++ s = gs "params[\"" ++ (n ++ (gs "\"]" ++ s)) := by
  simp [patQuote]

theorem patApos_shape (n : GoStr) : patApos n = gs "params['" ++ (n ++ gs "']") := by
  simp [patApos]

theorem patApos_append (n s : GoStr) :
    patApos n ++ s = gs "params['" ++ (n ++ (gs "']" ++ s)) := by
  simp [patApos]

theorem objAttrKey_shape (n k : GoStr) : objAttrKey n k = gs "params." ++ (n ++ '.' :: k) := by
  simp [objAttrKey, gs]

/-! Injectivity and distinctness of the generated keys. -/

theorem patDot_inj {a b : GoStr} (h : patDot a = patDot b) : a = b :=
  List.append_cancel_left h

theorem patQuote_inj {a b : GoStr} (h : patQuote a = patQuote b) : a = b := by
  rw [patQuote_shape, patQuote_shape] at h
  exact List.append_cancel_right (List.append_cancel_left h)

theorem patApos_inj {a b : GoStr} (h : patApos a = patApos b) : a = b := by
  rw [patApos_shape, patApos_shape] at h
  exact List.append_cancel_right (List.append_cancel_left h)

theorem patDot_ne_base_idx {a b : GoStr} (i : Nat) (ha : '[' ∉ a) :
    patDot a ≠ patDot b ++ idxSuffix i := by
  rw [patDot_def, patDot_append]
  intro h
  have h2 := List.append_cancel_left h
  exact ha (h2 ▸ List.mem_append_right b (lbracket_mem_idxSuffix i))

theorem patQuote_ne_base_idx {a b : GoStr} (i : Nat) (ha : '[' ∉ a) :
    patQuote a ≠ patQuote b ++ idxSuffix i := by
  rw [patQuote_shape, patQuote_append]
  intro h
  have h2 := List.append_cancel_left h
  have hmem : '[' ∈ b ++ (gs "\"]" ++ idxSuffix i) :=
    List.mem_append_right b (List.mem_append_right _ (lbracket_mem_idxSuffix i))
  rw [← h2] at hmem
  rcases List.mem_append.mp hmem with hm | hm
  · exact ha hm
  · simp [gs] at hm

theorem patApos_ne_base_idx {a b : GoStr} (i : Nat) (ha : '[' ∉ a) :
    patApos a ≠ patApos b ++ idxSuffix i := by
  rw [patApos_shape, patApos_append]
  intro h
  have h2 := List.append_cancel_left h
  have hmem : '[' ∈ b ++ (gs "']" ++ idxSuffix i) :=
    List.mem_append_right b (List.mem_append_right _ (lbracket_mem_idxSuffix i))
  rw [← h2] at hmem
  rcases List.mem_append.mp hmem with hm | hm
  · exact ha hm
  · simp [gs] at hm

theorem patDot_idx_inj {a b : GoStr} {i j : Nat} (ha : '[' ∉ a) (hb : '[' ∉ b)
    (h : patDot a ++ idxSuffix i = patDot b ++ idxSuffix j) : a = b := by
  rw [patDot_append, patDot_append] at h
  have h2 := List.append_cancel_left h
  have hsh : ∀ x (m : Nat), x ++ idxSuffix m = x ++ '[' :: (natToChars m ++ [']']) :=
    fun x m => rfl
  rw [hsh a i, hsh b j] at h2
  exact (clean_append_special_inj '[' a _ b _ ha hb h2).1

theorem patQuote_idx_inj {a b : GoStr} {i j : Nat} (ha : '[' ∉ a) (hb : '[' ∉ b)
    (h : patQuote a ++ idxSuffix i = patQuote b ++ idxSuffix j) : a = b := by
  rw [patQuote_shape, patQuote_shape] at h
  have h2 : (a ++ gs "\"]") ++ '[' :: (natToChars i ++ [']']) =
      (b ++ gs "\"]") ++ '[' :: (natToChars j ++ [']']) := by
    have := @List.append_cancel_left Char (gs "params[\"") _ _
      (by simpa [List.append_assoc] using h)
    simpa [List.append_assoc] using this
  have hcl : ∀ x : GoStr, '[' ∉ x → '[' ∉ x ++ gs "\"]" := by
    intro x hx hmem
    rcases List.mem_append.mp hmem with hm | hm
    · exact hx hm
    · simp [gs] at hm
  have h3 := (clean_append_special_inj '[' _ _ _ _ (hcl a ha) (hcl b hb) h2).1
  exact List.append_cancel_right h3

theorem patApos_idx_inj {a b : GoStr} {i j : Nat} (ha : '[' ∉ a) (hb : '[' ∉ b)
    (h : patApos a ++ idxSuffix i = patApos b ++ idxSuffix j) : a = b := by
  rw [patApos_shape, patApos_shape] at h
  have h2 : (a ++ gs "']") ++ '[' :: (natToChars i ++ [']']) =
      (b ++ gs "']") ++ '[' :: (natToChars j ++ [']']) := by
    have := @List.append_cancel_left Char (gs "params['") _ _
      (by simpa [List.append_assoc] using h)
    simpa [List.append_assoc] using this
  have hcl : ∀ x : GoStr, '[' ∉ x → '[' ∉ x ++ gs "']" := by
    intro x hx hmem
    rcases List.mem_append.mp hmem with hm | hm
    · exact hx hm
    · simp [gs] at hm
  have h3 := (clean_append_special_inj '[' _ _ _ _ (hcl a ha) (hcl b hb) h2).1
  exact List.append_cancel_right h3

theorem objAttrKey_ne_patDot {name k n : GoStr} (hn : '.' ∉ n) :
    objAttrKey name k ≠ patDot n := by
  rw [objAttrKey_shape, patDot_def]
  intro h
  have h2 := List.append_cancel_left h
  exact hn (h2 ▸ List.mem_append_right name (List.mem_cons_self _ _))

theorem objAttrKey_ne_patDot_idx {name k n : GoStr} {j : Nat} (hn : '.' ∉ n) :
    objAttrKey name k ≠ patDot n ++ idxSuffix j := by
  rw [objAttrKey_shape, patDot_append]
  intro h
  have h2 := List.append_cancel_left h
  have hmem : '.' ∈ n ++ idxSuffix j :=
    h2 ▸ List.mem_append_right name (List.mem_cons_self _ _)
  rcases List.mem_append.mp hmem with hm | hm
  · exact hn hm
  · exact idxSuffix_no_dot j hm

theorem mapLookup_insert3 {α : Type} (s : List (GoStr × α)) (K1 K2 K3 T : GoStr) (v : α) :
    mapLookup (mapInsert (mapInsert (mapInsert s K1 v) K2 v) K3 v) T =
      if K3 = T then some v
      else if K2 = T then some v
      else if K1 = T then some v
      else mapLookup s T := by
  rw [mapLookup_insert, mapLookup_insert, mapLookup_insert]

theorem foldl_keyinsert_lookup_ne {β α : Type} (l : List β) (m : List (GoStr × α))
    (f : β → GoStr) (g : β → α) (K : GoStr) (h : ∀ x ∈ l, f x ≠ K) :
    mapLookup (l.foldl (fun m2 x => mapInsert m2 (f x) (g x)) m) K = mapLookup m K := by
  induction l generalizing m with
  | nil => rfl
  | cons x rest ih =>
    rw [List.foldl_cons, ih _ (fun y hy => h y (List.mem_cons_of_mem x hy)),
      mapLookup_insert_ne _ _ _ _ (h x (List.mem_cons_self x rest))]

/-- The index seeding loop writes index keys symmetrically under any
two prefixes: lookups that agreed before agree after. -/
theorem foldIdx_agree (ℓ : List Nat) (vv : Nat → Tmpl) (m1 m2 : SMap)
    (pre1 pre2 : GoStr) (j : Nat)
    (h : mapLookup m1 (pre1 ++ idxSuffix j) = mapLookup m2 (pre2 ++ idxSuffix j)) :
    mapLookup (ℓ.foldl (fun m i => mapInsert m (pre1 ++ idxSuffix i) (vv i)) m1)
        (pre1 ++ idxSuffix j) =
      mapLookup (ℓ.foldl (fun m i => mapInsert m (pre2 ++ idxSuffix i) (vv i)) m2)
        (pre2 ++ idxSuffix j) := by
  induction ℓ generalizing m1 m2 with
  | nil => exact h
  | cons i rest ih =>
    rw [List.foldl_cons, List.foldl_cons]
    apply ih
    by_cases hij : idxSuffix i = idxSuffix j
    · rw [mapLookup_insert, if_pos (by rw [hij]), mapLookup_insert, if_pos (by rw [hij])]
    · rw [mapLookup_insert_ne _ _ _ _ (fun hh => hij (List.append_cancel_left hh)),
        mapLookup_insert_ne _ _ _ _ (fun hh => hij (List.append_cancel_left hh)), h]

/-- The three addressing forms of a name have identical entries in each
of the three replacement maps, base keys and index keys alike. -/
def TripleAgree (ms : RMaps) (n : GoStr) : Prop :=
  (mapLookup ms.str (patDot n) = mapLookup ms.str (patQuote n) ∧
    mapLookup ms.str (patDot n) = mapLookup ms.str (patApos n)) ∧
  (mapLookup ms.arr (patDot n) = mapLookup ms.arr (patQuote n) ∧
    mapLookup ms.arr (patDot n) = mapLookup ms.arr (patApos n)) ∧
  (mapLookup ms.obj (patDot n) = mapLookup ms.obj (patQuote n) ∧
    mapLookup ms.obj (patDot n) = mapLookup ms.obj (patApos n)) ∧
  ∀ j : Nat,
    mapLookup ms.str (patDot n ++ idxSuffix j) =
      mapLookup ms.str (patQuote n ++ idxSuffix j) ∧
    mapLookup ms.str (patDot n ++ idxSuffix j) =
      mapLookup ms.str (patApos n ++ idxSuffix j)

theorem quote_ne_dot (a b : GoStr) : patQuote a ≠ patDot b := by
  rw [patQuote_shape, patDot_def]
  exact (params_dot_ne_quote _ _).symm

theorem apos_ne_dot (a b : GoStr) : patApos a ≠ patDot b := by
  rw [patApos_shape, patDot_def]
  exact (params_dot_ne_apos _ _).symm

theorem apos_ne_quote (a b : GoStr) : patApos a ≠ patQuote b := by
  rw [patApos_shape, patQuote_shape]
  exact (params_quote_ne_apos _ _).symm

theorem quote_ne_dot_idx (a b : GoStr) (j : Nat) : patQuote a ≠ patDot b ++ idxSuffix j := by
  rw [patQuote_shape, patDot_append]
  exact (params_dot_ne_quote _ _).symm

theorem apos_ne_dot_idx (a b : GoStr) (j : Nat) : patApos a ≠ patDot b ++ idxSuffix j := by
  rw [patApos_shape, patDot_append]
  exact (params_dot_ne_apos _ _).symm

theorem apos_ne_quote_idx (a b : GoStr) (j : Nat) :
    patApos a ≠ patQuote b ++ idxSuffix j := by
  rw [patApos_shape, patQuote_append]
  exact (params_quote_ne_apos _ _).symm

theorem dot_ne_quote_idx (a b : GoStr) (j : Nat) : patDot a ≠ patQuote b ++ idxSuffix j := by
  rw [patDot_def, patQuote_append]
  exact params_dot_ne_quote _ _

theorem dot_ne_apos_idx (a b : GoStr) (j : Nat) : patDot a ≠ patApos b ++ idxSuffix j := by
  rw [patDot_def, patApos_append]
  exact params_dot_ne_apos _ _

theorem quote_ne_apos_idx (a b : GoStr) (j : Nat) :
    patQuote a ≠ patApos b ++ idxSuffix j := by
  rw [patQuote_shape, patApos_append]
  exact params_quote_ne_apos _ _

theorem dot_idx_ne_quote_idx (a b : GoStr) (i j : Nat) :
    patDot a ++ idxSuffix i ≠ patQuote b ++ idxSuffix j := by
  rw [patDot_append, patQuote_append]
  exact params_dot_ne_quote _ _

theorem dot_idx_ne_apos_idx (a b : GoStr) (i j : Nat) :
    patDot a ++ idxSuffix i ≠ patApos b ++ idxSuffix j := by
  rw [patDot_append, patApos_append]
  exact params_dot_ne_apos _ _

theorem quote_idx_ne_apos_idx (a b : GoStr) (i j : Nat) :
    patQuote a ++ idxSuffix i ≠ patApos b ++ idxSuffix j := by
  rw [patQuote_append, patApos_append]
  exact params_quote_ne_apos _ _

/-- Inserting one value under all three addressing forms of one name
preserves base-key agreement for every clean lookup name. -/
theorem insert3_agree {α : Type} (s : List (GoStr × α)) (name n : GoStr) (v : α)
    (h1 : mapLookup s (patDot n) = mapLookup s (patQuote n))
    (h2 : mapLookup s (patDot n) = mapLookup s (patApos n)) :
    mapLookup (mapInsert (mapInsert (mapInsert s (patDot name) v) (patQuote name) v)
        (patApos name) v) (patDot n) =
      mapLookup (mapInsert (mapInsert (mapInsert s (patDot name) v) (patQuote name) v)
        (patApos name) v) (patQuote n) ∧
    mapLookup (mapInsert (mapInsert (mapInsert s (patDot name) v) (patQuote name) v)
        (patApos name) v) (patDot n) =
      mapLookup (mapInsert (mapInsert (mapInsert s (patDot name) v) (patQuote name) v)
        (patApos name) v) (patApos n) := by
  by_cases heq : name = n
  · subst heq
    constructor
    · simp only [mapLookup_insert3]
      rw [if_neg (apos_ne_dot name name), if_neg (quote_ne_dot name name),
        if_neg (apos_ne_quote name name)]
      simp
    · simp only [mapLookup_insert3]
      rw [if_neg (apos_ne_dot name name), if_neg (quote_ne_dot name name)]
      simp
  · have hdd : ¬ patDot name = patDot n := fun h => heq (patDot_inj h)
    have hqq : ¬ patQuote name = patQuote n := fun h => heq (patQuote_inj h)
    have haa : ¬ patApos name = patApos n := fun h => heq (patApos_inj h)
    constructor
    · simp only [mapLookup_insert3]
      rw [if_neg (apos_ne_dot name n), if_neg (quote_ne_dot name n), if_neg hdd,
        if_neg (apos_ne_quote name n), if_neg hqq, if_neg (quote_ne_dot n name).symm]
      exact h1
    · simp only [mapLookup_insert3]
      rw [if_neg (apos_ne_dot name n), if_neg (quote_ne_dot name n), if_neg hdd,
        if_neg haa, if_neg (apos_ne_quote n name).symm, if_neg (apos_ne_dot n name).symm]
      exact h2

/-- The triple insert leaves every index key untouched. -/
theorem insert3_idx_passthrough {α : Type} (s : List (GoStr × α)) (name n : GoStr)
    (v : α) (j : Nat) (hname : '[' ∉ name) :
    mapLookup (mapInsert (mapInsert (mapInsert s (patDot name) v) (patQuote name) v)
        (patApos name) v) (patDot n ++ idxSuffix j) =
      mapLookup s (patDot n ++ idxSuffix j) ∧
    mapLookup (mapInsert (mapInsert (mapInsert s (patDot name) v) (patQuote name) v)
        (patApos name) v) (patQuote n ++ idxSuffix j) =
      mapLookup s (patQuote n ++ idxSuffix j) ∧
    mapLookup (mapInsert (mapInsert (mapInsert s (patDot name) v) (patQuote name) v)
        (patApos name) v) (patApos n ++ idxSuffix j) =
      mapLookup s (patApos n ++ idxSuffix j) := by
  refine ⟨?_, ?_, ?_⟩ <;> simp only [mapLookup_insert3]
  · rw [if_neg (apos_ne_dot_idx name n j), if_neg (quote_ne_dot_idx name n j),
      if_neg (patDot_ne_base_idx j hname)]
  · rw [if_neg (apos_ne_quote_idx name n j), if_neg (patQuote_ne_base_idx j hname),
      if_neg (dot_ne_quote_idx name n j)]
  · rw [if_neg (patApos_ne_base_idx j hname), if_neg (quote_ne_apos_idx name n j),
      if_neg (dot_ne_apos_idx name n j)]

theorem seedParamValue_str_case (ms : RMaps) (name : GoStr) (v : ParamValue)
    (htype : v.type = ParamType.string) :
    seedParamValue ms name v =
      RMaps.mk (mapInsert (mapInsert (mapInsert ms.str
          (patDot name) v.stringVal) (patQuote name) v.stringVal)
          (patApos name) v.stringVal) ms.arr ms.obj := by
  unfold seedParamValue
  rw [htype]
  simp [paramPatterns]

theorem seedParamValue_obj_case (ms : RMaps) (name : GoStr) (v : ParamValue)
    (htype : v.type = ParamType.object) :
    seedParamValue ms name v =
      RMaps.mk (v.objectVal.foldl
          (fun m kv => mapInsert m (objAttrKey name kv.1) kv.2) ms.str)
        ms.arr
        (mapInsert (mapInsert (mapInsert ms.obj
          (patDot name) v.objectVal) (patQuote name) v.objectVal)
          (patApos name) v.objectVal) := by
  unfold seedParamValue
  rw [htype]
  simp only [paramPatterns, List.foldl_cons, List.foldl_nil]
  rw [rmaps_fold_str v.objectVal _ (fun kv => objAttrKey name kv.1) (fun kv => kv.2)]

theorem seedParamValue_arr_case (ms : RMaps) (name : GoStr) (v : ParamValue)
    (htype : v.type = ParamType.array) :
    seedParamValue ms name v =
      RMaps.mk ((List.range v.arrayVal.length).foldl
          (fun m i => mapInsert m (patApos name ++ idxSuffix i) (v.arrayVal.getD i []))
          ((List.range v.arrayVal.length).foldl
            (fun m i => mapInsert m (patQuote name ++ idxSuffix i) (v.arrayVal.getD i []))
            ((List.range v.arrayVal.length).foldl
              (fun m i => mapInsert m (patDot name ++ idxSuffix i) (v.arrayVal.getD i []))
              ms.str)))
        (mapInsert (mapInsert (mapInsert ms.arr
          (patDot name) v.arrayVal) (patQuote name) v.arrayVal)
          (patApos name) v.arrayVal)
        ms.obj := by
  unfold seedParamValue
  rw [htype]
  simp only [paramPatterns, List.foldl_cons, List.foldl_nil]
  rw [rmaps_fold_str (List.range v.arrayVal.length) ms
    (fun i => patDot name ++ idxSuffix i) (fun i => v.arrayVal.getD i [])]
  rw [rmaps_fold_str (List.range v.arrayVal.length) _
    (fun i => patQuote name ++ idxSuffix i) (fun i => v.arrayVal.getD i [])]
  rw [rmaps_fold_str (List.range v.arrayVal.length) _
    (fun i => patApos name ++ idxSuffix i) (fun i => v.arrayVal.getD i [])]

/-- Seeding one value under a clean name preserves the three-form
agreement at every clean lookup name. -/
theorem seedParamValue_agree (ms : RMaps) (name : GoStr) (v : ParamValue) (n : GoStr)
    (hname : cleanName name) (hn : cleanName n)
    (h : TripleAgree ms n) : TripleAgree (seedParamValue ms name v) n := by
  obtain ⟨hstr, harr, hobj, hidx⟩ := h
  cases htype : v.type with
  | string =>
    rw [seedParamValue_str_case ms name v htype]
    refine ⟨insert3_agree ms.str name n v.stringVal hstr.1 hstr.2, harr, hobj, ?_⟩
    intro j
    obtain ⟨p1, p2, p3⟩ := insert3_idx_passthrough ms.str name n v.stringVal j hname.2
    refine ⟨?_, ?_⟩
    · show mapLookup _ (patDot n ++ idxSuffix j) = mapLookup _ (patQuote n ++ idxSuffix j)
      rw [p1, p2]
      exact (hidx j).1
    · show mapLookup _ (patDot n ++ idxSuffix j) = mapLookup _ (patApos n ++ idxSuffix j)
      rw [p1, p3]
      exact (hidx j).2
  | object =>
    rw [seedParamValue_obj_case ms name v htype]
    have hpass : ∀ T : GoStr, (∀ kv : GoStr × Tmpl, objAttrKey name kv.1 ≠ T) →
        mapLookup (v.objectVal.foldl
          (fun m kv => mapInsert m (objAttrKey name kv.1) kv.2) ms.str) T =
          mapLookup ms.str T :=
      fun T hT => foldl_keyinsert_lookup_ne v.objectVal ms.str _ _ T (fun kv _ => hT kv)
    refine ⟨?_, harr, insert3_agree ms.obj name n v.objectVal hobj.1 hobj.2, ?_⟩
    · constructor
      · show mapLookup _ (patDot n) = mapLookup _ (patQuote n)
        rw [hpass (patDot n) (fun kv => objAttrKey_ne_patDot hn.1),
          hpass (patQuote n) (fun kv => by
            rw [objAttrKey_shape, patQuote_shape]
            exact params_dot_ne_quote _ _)]
        exact hstr.1
      · show mapLookup _ (patDot n) = mapLookup _ (patApos n)
        rw [hpass (patDot n) (fun kv => objAttrKey_ne_patDot hn.1),
          hpass (patApos n) (fun kv => by
            rw [objAttrKey_shape, patApos_shape]
            exact params_dot_ne_apos _ _)]
        exact hstr.2
    · intro j
      constructor
      · show mapLookup _ (patDot n ++ idxSuffix j) = mapLookup _ (patQuote n ++ idxSuffix j)
        rw [hpass (patDot n ++ idxSuffix j) (fun kv => objAttrKey_ne_patDot_idx hn.1),
          hpass (patQuote n ++ idxSuffix j) (fun kv => by
            rw [objAttrKey_shape, patQuote_append]
            exact params_dot_ne_quote _ _)]
        exact (hidx j).1
      · show mapLookup _ (patDot n ++ idxSuffix j) = mapLookup _ (patApos n ++ idxSuffix j)
        rw [hpass (patDot n ++ idxSuffix j) (fun kv => objAttrKey_ne_patDot_idx hn.1),
          hpass (patApos n ++ idxSuffix j) (fun kv => by
            rw [objAttrKey_shape, patApos_append]
            exact params_dot_ne_apos _ _)]
        exact (hidx j).2
  | array =>
    rw [seedParamValue_arr_case ms name v htype]
    have hpassApos : ∀ T : GoStr, (∀ i : Nat, patApos name ++ idxSuffix i ≠ T) →
        ∀ m : SMap, mapLookup ((List.range v.arrayVal.length).foldl
          (fun m2 i => mapInsert m2 (patApos name ++ idxSuffix i) (v.arrayVal.getD i [])) m)
          T = mapLookup m T :=
      fun T hT m => foldl_keyinsert_lookup_ne _ m _ _ T (fun i _ => hT i)
    have hpassQuote : ∀ T : GoStr, (∀ i : Nat, patQuote name ++ idxSuffix i ≠ T) →
        ∀ m : SMap, mapLookup ((List.range v.arrayVal.length).foldl
          (fun m2 i => mapInsert m2 (patQuote name ++ idxSuffix i) (v.arrayVal.getD i [])) m)
          T = mapLookup m T :=
      fun T hT m => foldl_keyinsert_lookup_ne _ m _ _ T (fun i _ => hT i)
    have hpassDot : ∀ T : GoStr, (∀ i : Nat, patDot name ++ idxSuffix i ≠ T) →
        ∀ m : SMap, mapLookup ((List.range v.arrayVal.length).foldl
          (fun m2 i => mapInsert m2 (patDot name ++ idxSuffix i) (v.arrayVal.getD i [])) m)
          T = mapLookup m T :=
      fun T hT m => foldl_keyinsert_lookup_ne _ m _ _ T (fun i _ => hT i)
    refine ⟨?_, insert3_agree ms.arr name n v.arrayVal harr.1 harr.2, hobj, ?_⟩
    · constructor
      · show mapLookup _ (patDot n) = mapLookup _ (patQuote n)
        rw [hpassApos (patDot n) (fun i => (dot_ne_apos_idx n name i).symm) _,
          hpassQuote (patDot n) (fun i => (dot_ne_quote_idx n name i).symm) _,
          hpassDot (patDot n) (fun i => Ne.symm (patDot_ne_base_idx i hn.2)) _,
          hpassApos (patQuote n) (fun i => (quote_ne_apos_idx n name i).symm) _,
          hpassQuote (patQuote n) (fun i => Ne.symm (patQuote_ne_base_idx i hn.2)) _,
          hpassDot (patQuote n) (fun i => (quote_ne_dot_idx n name i).symm) _]
        exact hstr.1
      · show mapLookup _ (patDot n) = mapLookup _ (patApos n)
        rw [hpassApos (patDot n) (fun i => (dot_ne_apos_idx n name i).symm) _,
          hpassQuote (patDot n) (fun i => (dot_ne_quote_idx n name i).symm) _,
          hpassDot (patDot n) (fun i => Ne.symm (patDot_ne_base_idx i hn.2)) _,
          hpassApos (patApos n) (fun i => Ne.symm (patApos_ne_base_idx i hn.2)) _,
          hpassQuote (patApos n) (fun i => (apos_ne_quote_idx n name i).symm) _,
          hpassDot (patApos n) (fun i => (apos_ne_dot_idx n name i).symm) _]
        exact hstr.2
    · intro j
      by_cases heq : name = n
      · subst heq
        have c1 := foldIdx_agree (List.range v.arrayVal.length)
          (fun i => v.arrayVal.getD i []) ms.str
          ((List.range v.arrayVal.length).foldl
            (fun m2 i => mapInsert m2 (patDot name ++ idxSuffix i) (v.arrayVal.getD i []))
            ms.str)
          (patDot name) (patQuote name) j
          (by
            rw [hpassDot (patQuote name ++ idxSuffix j)
              (fun i => dot_idx_ne_quote_idx name name i j) _]
            exact (hidx j).1)
        have c2 := foldIdx_agree (List.range v.arrayVal.length)
          (fun i => v.arrayVal.getD i []) ms.str
          ((List.range v.arrayVal.length).foldl
            (fun m2 i => mapInsert m2 (patQuote name ++ idxSuffix i) (v.arrayVal.getD i []))
            ((List.range v.arrayVal.length).foldl
              (fun m2 i => mapInsert m2 (patDot name ++ idxSuffix i) (v.arrayVal.getD i []))
              ms.str))
          (patDot name) (patApos name) j
          (by
            rw [hpassQuote (patApos name ++ idxSuffix j)
              (fun i => quote_idx_ne_apos_idx name name i j) _,
              hpassDot (patApos name ++ idxSuffix j)
              (fun i => dot_idx_ne_apos_idx name name i j) _]
            exact (hidx j).2)
        constructor
        · show mapLookup _ (patDot name ++ idxSuffix j) =
            mapLookup _ (patQuote name ++ idxSuffix j)
          rw [hpassApos (patDot name ++ idxSuffix j)
              (fun i => (dot_idx_ne_apos_idx name name j i).symm) _,
            hpassQuote (patDot name ++ idxSuffix j)
              (fun i => (dot_idx_ne_quote_idx name name j i).symm) _,
            hpassApos (patQuote name ++ idxSuffix j)
              (fun i => (quote_idx_ne_apos_idx name name j i).symm) _]
          exact c1
        · show mapLookup _ (patDot name ++ idxSuffix j) =
            mapLookup _ (patApos name ++ idxSuffix j)
          rw [hpassApos (patDot name ++ idxSuffix j)
              (fun i => (dot_idx_ne_apos_idx name name j i).symm) _,
            hpassQuote (patDot name ++ idxSuffix j)
              (fun i => (dot_idx_ne_quote_idx name name j i).symm) _]
          exact c2
      · have hddne : ∀ i : Nat, patDot name ++ idxSuffix i ≠ patDot n ++ idxSuffix j :=
          fun i hcon => heq (patDot_idx_inj hname.2 hn.2 hcon)
        have hqqne : ∀ i : Nat, patQuote name ++ idxSuffix i ≠ patQuote n ++ idxSuffix j :=
          fun i hcon => heq (patQuote_idx_inj hname.2 hn.2 hcon)
        have haane : ∀ i : Nat, patApos name ++ idxSuffix i ≠ patApos n ++ idxSuffix j :=
          fun i hcon => heq (patApos_idx_inj hname.2 hn.2 hcon)
        constructor
        · show mapLookup _ (patDot n ++ idxSuffix j) =
            mapLookup _ (patQuote n ++ idxSuffix j)
          rw [hpassApos (patDot n ++ idxSuffix j)
              (fun i => (dot_idx_ne_apos_idx n name j i).symm) _,
            hpassQuote (patDot n ++ idxSuffix j)
              (fun i => (dot_idx_ne_quote_idx n name j i).symm) _,
            hpassDot (patDot n ++ idxSuffix j) hddne _,
            hpassApos (patQuote n ++ idxSuffix j)
              (fun i => (quote_idx_ne_apos_idx n name j i).symm) _,
            hpassQuote (patQuote n ++ idxSuffix j) hqqne _,
            hpassDot (patQuote n ++ idxSuffix j)
              (fun i => dot_idx_ne_quote_idx name n i j) _]
          exact (hidx j).1
        · show mapLookup _ (patDot n ++ idxSuffix j) =
            mapLookup _ (patApos n ++ idxSuffix j)
          rw [hpassApos (patDot n ++ idxSuffix j)
              (fun i => (dot_idx_ne_apos_idx n name j i).symm) _,
            hpassQuote (patDot n ++ idxSuffix j)
              (fun i => (dot_idx_ne_quote_idx n name j i).symm) _,
            hpassDot (patDot n ++ idxSuffix j) hddne _,
            hpassApos (patApos n ++ idxSuffix j) haane _,
            hpassQuote (patApos n ++ idxSuffix j)
              (fun i => quote_idx_ne_apos_idx name n i j) _,
            hpassDot (patApos n ++ idxSuffix j)
              (fun i => dot_idx_ne_apos_idx name n i j) _]
          exact (hidx j).2

theorem tripleAgree_empty (n : GoStr) : TripleAgree RMaps.empty n :=
  ⟨⟨rfl, rfl⟩, ⟨rfl, rfl⟩, ⟨rfl, rfl⟩, fun _ => ⟨rfl, rfl⟩⟩

/-- The run-parameter seeding loop preserves three-form agreement. -/
theorem tripleAgree_fold_run (ps : List Param) (n : GoStr) (hn : cleanName n) :
    ∀ ms : RMaps, (∀ q ∈ ps, cleanName q.name) → TripleAgree ms n →
    TripleAgree (ps.foldl (fun ms2 q => seedParamValue ms2 q.name q.value) ms) n := by
  induction ps with
  | nil => exact fun ms _ h => h
  | cons q rest ih =>
    intro ms hclean h
    rw [List.foldl_cons]
    exact ih _ (fun x hx => hclean x (List.mem_cons_of_mem q hx))
      (seedParamValue_agree ms q.name q.value n (hclean q (List.mem_cons_self q rest)) hn h)

/-- The declared-default seeding loop preserves three-form agreement. -/
theorem tripleAgree_fold_specs (ps : List ParamSpec) (n : GoStr) (hn : cleanName n) :
    ∀ ms : RMaps, (∀ q ∈ ps, cleanName q.name) → TripleAgree ms n →
    TripleAgree (ps.foldl
      (fun ms2 q =>
        match q.defaultVal with
        | none => ms2
        | some v => seedParamValue ms2 q.name v) ms) n := by
  induction ps with
  | nil => exact fun ms _ h => h
  | cons q rest ih =>
    intro ms hclean h
    rw [List.foldl_cons]
    refine ih _ (fun x hx => hclean x (List.mem_cons_of_mem q hx)) ?_
    cases hd : q.defaultVal with
    | none => simpa [hd] using h
    | some v =>
      have := seedParamValue_agree ms q.name v n (hclean q (List.mem_cons_self q rest)) hn h
      simpa [hd] using this

/-- Overwriting the default maps with the run maps preserves three-form
agreement when both sides agree and the run maps have no duplicate keys. -/
theorem tripleAgree_overlay (base ext : RMaps) (n : GoStr)
    (n1 : NodupKeys ext.str) (n2 : NodupKeys ext.arr) (n3 : NodupKeys ext.obj)
    (hb : TripleAgree base n) (he : TripleAgree ext n) :
    TripleAgree (overlayMaps base ext) n := by
  obtain ⟨hbs, hba, hbo, hbi⟩ := hb
  obtain ⟨hes, hea, heo, hei⟩ := he
  unfold overlayMaps
  refine ⟨⟨?_, ?_⟩, ⟨?_, ?_⟩, ⟨?_, ?_⟩, ?_⟩
  · show mapLookup _ (patDot n) = mapLookup _ (patQuote n)
    rw [foldl_insert_lookup _ _ _ n1, foldl_insert_lookup _ _ _ n1, hes.1, hbs.1]
  · show mapLookup _ (patDot n) = mapLookup _ (patApos n)
    rw [foldl_insert_lookup _ _ _ n1, foldl_insert_lookup _ _ _ n1, hes.2, hbs.2]
  · show mapLookup _ (patDot n) = mapLookup _ (patQuote n)
    rw [foldl_insert_lookup _ _ _ n2, foldl_insert_lookup _ _ _ n2, hea.1, hba.1]
  · show mapLookup _ (patDot n) = mapLookup _ (patApos n)
    rw [foldl_insert_lookup _ _ _ n2, foldl_insert_lookup _ _ _ n2, hea.2, hba.2]
  · show mapLookup _ (patDot n) = mapLookup _ (patQuote n)
    rw [foldl_insert_lookup _ _ _ n3, foldl_insert_lookup _ _ _ n3, heo.1, hbo.1]
  · show mapLookup _ (patDot n) = mapLookup _ (patApos n)
    rw [foldl_insert_lookup _ _ _ n3, foldl_insert_lookup _ _ _ n3, heo.2, hbo.2]
  · intro j
    constructor
    · show mapLookup _ (patDot n ++ idxSuffix j) = mapLookup _ (patQuote n ++ idxSuffix j)
      rw [foldl_insert_lookup _ _ _ n1, foldl_insert_lookup _ _ _ n1, (hei j).1,
        (hbi j).1]
    · show mapLookup _ (patDot n ++ idxSuffix j) = mapLookup _ (patApos n ++ idxSuffix j)
      rw [foldl_insert_lookup _ _ _ n1, foldl_insert_lookup _ _ _ n1, (hei j).2,
        (hbi j).2]

/-- C4 (amended): for every parameter name free of the pattern
delimiter characters dot and open-bracket, the three addressing forms
`params.name`, the double-quoted bracket form and the single-quoted
bracket form resolve identically in every replacement map
`ApplyParameters` builds — at the base key and at every array index
key; the object single-attribute projection, however, is populated
under the dotted form only (see the accompanying counterexample). -/
theorem param_syntax_equivalence (p : PipelineSpec) (pr : PipelineRun) (n : GoStr)
    (hn : cleanName n)
    (hd : ∀ ps ∈ p.params, cleanName ps.name)
    (hr : ∀ q ∈ pr.spec.params, cleanName q.name) :
    TripleAgree (applyParametersMaps p pr) n := by
  unfold applyParametersMaps
  obtain ⟨m1, m2, m3⟩ := paramsFromPipelineRun_nodup pr
  refine tripleAgree_overlay _ _ n m1 m2 m3 ?_ ?_
  · exact tripleAgree_fold_specs p.params n hn RMaps.empty hd (tripleAgree_empty n)
  · exact tripleAgree_fold_run pr.spec.params n hn RMaps.empty hr (tripleAgree_empty n)

/-- Spec for the C4 counterexample: a single object parameter `image`
with one attribute `url`, defaulted. -/
def exC4Spec : PipelineSpec :=
  ⟨[⟨gs "image", some (objVal [(gs "url", litT "reg.io")])⟩], [], [], []⟩

/-- Run for the C4 counterexample: no run-supplied parameters. -/
def exC4Run : PipelineRun := ⟨gs "pr", gs "ns", gs "u", ⟨[], []⟩⟩

/-- Counterexample for C4 as stated: the object single-attribute
projection is populated in the string map under the dotted key
`params.image.url` only; the two bracketed forms of the same attribute
reference are not populated at all, so the three syntactic forms are
not populated identically for the object-attribute value shape. -/
theorem object_attr_dotted_only :
    mapLookup (applyParametersMaps exC4Spec exC4Run).str (gs "params.image.url") =
      some (litT "reg.io") ∧
    mapLookup (applyParametersMaps exC4Spec exC4Run).str
      (gs "params[\"image\"].url") = none ∧
    mapLookup (applyParametersMaps exC4Spec exC4Run).str
      (patApos (gs "image") ++ gs ".url") = none := by
  decide

/-- Witness for the amended C4 theorem at the concrete object
parameter `image`. -/
theorem param_syntax_equivalence_witness :
    cleanName (gs "image") ∧
      TripleAgree (applyParametersMaps exC4Spec exC4Run) (gs "image") :=
  ⟨by decide, param_syntax_equivalence exC4Spec exC4Run (gs "image") (by decide)
    (by decide) (by decide)⟩

/-! ## The aggregator claims: arithmetic of rendered indices and the
shape of split references -/

theorem natToCharsAux_ne_nil (fuel n : Nat) : natToCharsAux (fuel + 1) n ≠ [] := by
  unfold natToCharsAux
  by_cases h : n < 10
  · simp [h]
  · simp [h]

theorem natToChars_ne_nil (n : Nat) : natToChars n ≠ [] := natToCharsAux_ne_nil n n

theorem isDigitCh_digitChar : ∀ d, d < 10 → isDigitCh (digitChar d) = true := by decide

theorem natToChars_all_digits (n : Nat) : (natToChars n).all isDigitCh = true := by
  rw [List.all_eq_true]
  intro c hc
  obtain ⟨d, hd, hcd⟩ := natToCharsAux_digits _ _ _ hc
  rw [hcd]
  exact isDigitCh_digitChar d hd

theorem natToChars_no_bracket (n : Nat) : '[' ∉ natToChars n := by
  intro hmem
  obtain ⟨d, hd, hc⟩ := natToCharsAux_digits _ _ _ hmem
  exact (digitChar_not_special d hd).2.1 hc.symm

theorem natToChars_ne_star (n : Nat) : natToChars n ≠ gs "*" := by
  intro h
  have := natToChars_all_digits n
  rw [h] at this
  exact absurd this (by decide)

theorem digitsVal_append_one (a : GoStr) (c : Char) :
    digitsVal (a ++ [c]) = 10 * digitsVal a + (c.toNat - 48) := by
  unfold digitsVal
  rw [List.foldl_append]
  rfl

theorem digitChar_toNat : ∀ d, d < 10 → (digitChar d).toNat = 48 + d := by decide

theorem natToCharsAux_val (fuel : Nat) : ∀ n : Nat, n < 10 ^ fuel →
    digitsVal (natToCharsAux fuel n) = n := by
  induction fuel with
  | zero =>
    intro n hn
    interval_cases n
    rfl
  | succ fuel ih =>
    intro n hn
    unfold natToCharsAux
    by_cases h : n < 10
    · rw [if_pos h]
      show digitsVal [digitChar n] = n
      unfold digitsVal
      show 10 * 0 + ((digitChar n).toNat - 48) = n
      rw [digitChar_toNat n h]
      omega
    · rw [if_neg h, digitsVal_append_one]
      have hdiv : n / 10 < 10 ^ fuel := by
        rw [Nat.div_lt_iff_lt_mul (by norm_num)]
        calc n < 10 ^ (fuel + 1) := hn
        _ = 10 ^ fuel * 10 := by ring
      rw [ih _ hdiv, digitChar_toNat _ (Nat.mod_lt n (by norm_num))]
      omega

theorem goAtoi_natToChars (n : Nat) : goAtoi (natToChars n) = n := by
  unfold goAtoi
  rw [if_pos ⟨natToChars_ne_nil n, natToChars_all_digits n⟩]
  have hlt : n < 10 ^ (n + 1) := by
    calc n < 10 ^ n := Nat.lt_pow_self (by norm_num) n
    _ ≤ 10 ^ (n + 1) := Nat.pow_le_pow_right (by norm_num) (Nat.le_succ n)
  exact natToCharsAux_val (n + 1) n hlt

/-- Splitting a four-segment producer reference. -/
theorem splitDots_ref4 (t x : GoStr) (ht : '.' ∉ t) (hx : '.' ∉ x) :
    splitDots (gs "tasks" ++ '.' :: (t ++ '.' :: (gs "results" ++ '.' :: x))) =
      [gs "tasks", t, gs "results", x] := by
  rw [splitDots_append_dot _ _ (by decide), splitDots_append_dot _ _ ht,
    splitDots_append_dot _ _ (by decide), splitDots_no_dot _ hx]

/-- C2: the skipped-producer law of `ApplyTaskResultsToPipelineResults`,
at the level of one declared result.  The result's sole variable
`tasks.<t>.results.<res>` references a task whose result is absent from
both the task-result map and the custom-result map, and is not already
memoized.  When the status map holds a non-successful status for the
producing task, the declared result is silently dropped: not emitted and
not marked invalid (only the ghost miss log records the lookup).  When
the status map holds no entry for the task, the declared result is
marked invalid: its name is appended to the invalid list and it is not
emitted. -/
theorem skipped_producer_law (trr : List (GoStr × List TaskRunResult))
    (ctr : List (GoStr × List CustomRunResult))
    (tstatus : List (GoStr × GoStr)) (st : AggState) (r : PipelineResult)
    (t res v : GoStr)
    (hv : r.value.refs = [v])
    (hveq : v = gs "tasks" ++ '.' :: (t ++ '.' :: (gs "results" ++ '.' :: res)))
    (ht : '.' ∉ t) (hres : cleanSeg res)
    (htr : taskResultValue t res trr = none)
    (hcr : runResultValue t res ctr = none)
    (m1 : mapLookup st.str v = none) (m2 : mapLookup st.arr v = none)
    (m3 : mapLookup st.obj v = none) :
    (∀ s, mapLookup tstatus (taskStatusKey t) = some s → s ≠ successfulReason →
      processResult trr ctr tstatus st r =
        some { st with missLog := st.missLog ++ [v] }) ∧
    (mapLookup tstatus (taskStatusKey t) = none →
      processResult trr ctr tstatus st r =
        some { st with missLog := st.missLog ++ [v],
                       invalid := st.invalid ++ [r.name] }) := by
  have hsplit : splitDots v = [gs "tasks", t, gs "results", res] := by
    rw [hveq]
    exact splitDots_ref4 t res ht hres.1
  constructor
  · intro s hs hsne
    have hstep : stepVar trr ctr tstatus st v =
        some ({ st with missLog := st.missLog ++ [v] }, VarOutcome.dropped) := by
      simp only [stepVar, m1, m2, m3, hsplit, Option.isSome_none, Bool.false_eq_true,
        if_false, parseResultName_clean res hres, htr, hcr, hs]
      simp [resultTaskPart, resultFinallyPart, resultResultPart, hsne]
    simp only [processResult, hv]
    simp [processVars, hstep]
  · intro hs0
    have hstep : stepVar trr ctr tstatus st v =
        some ({ st with missLog := st.missLog ++ [v] }, VarOutcome.invalid) := by
      simp only [stepVar, m1, m2, m3, hsplit, Option.isSome_none, Bool.false_eq_true,
        if_false, parseResultName_clean res hres, htr, hcr, hs0]
      simp [resultTaskPart, resultFinallyPart, resultResultPart]
    simp only [processResult, hv]
    simp [processVars, hstep]

/-- Witness for C2 at a concrete failed producer `build`: the declared
result `digest` is dropped without joining the invalid list. -/
theorem skipped_producer_law_witness :
    (strVal (refT "tasks.build.results.digest")).refs =
      [gs "tasks.build.results.digest"] ∧
    processResult [] [] [(taskStatusKey (gs "build"), gs "Failed")] initAggState
      (PipelineResult.mk (gs "digest") (strVal (refT "tasks.build.results.digest"))) =
      some { initAggState with
             missLog := initAggState.missLog ++ [gs "tasks.build.results.digest"] } :=
  ⟨by decide,
    (skipped_producer_law [] [] [(taskStatusKey (gs "build"), gs "Failed")]
      initAggState
      (PipelineResult.mk (gs "digest") (strVal (refT "tasks.build.results.digest")))
      (gs "build") (gs "digest") (gs "tasks.build.results.digest")
      (by decide) (by decide) (by decide) (by decide) (by decide) (by decide)
      rfl rfl rfl).1 (gs "Failed") (by decide) (by decide)⟩

theorem isIdxPayload_natToChars (i : Nat) : isIdxPayload (natToChars i) = true := by
  unfold isIdxPayload
  rw [natToChars_all_digits]
  simp [natToChars_ne_nil i]

theorem idxSuffix_no_dot_mem (i : Nat) : '.' ∉ idxSuffix i := by
  unfold idxSuffix
  intro h
  rcases List.mem_cons.mp h with h1 | h2
  · exact absurd h1 (by decide)
  rcases List.mem_append.mp h2 with h3 | h4
  · exact natToChars_no_dot i h3
  · exact absurd h4 (by decide)

/-- C5: bounds-checked array indexing in
`ApplyTaskResultsToPipelineResults`, at the level of one declared
result whose sole variable is the indexed array reference
`tasks.<t>.results.<res>[i]` (not already memoized) with the producing
task's result present and array-typed.  In bounds, the reference
resolves to the i-th element, stored in the string map under the full
variable, and the declared result is emitted with that substitution; at
or beyond the array length the declared result is marked invalid (its
name joins the error list) and processing returns normally — no crash
for any index value. -/
theorem array_index_resolution (trr : List (GoStr × List TaskRunResult))
    (ctr : List (GoStr × List CustomRunResult))
    (tstatus : List (GoStr × GoStr)) (st : AggState) (r : PipelineResult)
    (t res v : GoStr) (i : Nat) (rv : ParamValue)
    (hv : r.value.refs = [v])
    (hveq : v = gs "tasks" ++ '.' ::
      (t ++ '.' :: (gs "results" ++ '.' :: (res ++ idxSuffix i))))
    (ht : '.' ∉ t) (hres : cleanSeg res)
    (htr : taskResultValue t res trr = some rv)
    (hty : rv.type = ParamType.array)
    (m1 : mapLookup st.str v = none) (m2 : mapLookup st.arr v = none)
    (m3 : mapLookup st.obj v = none) :
    (i < rv.arrayVal.length →
      processResult trr ctr tstatus st r = some
        { st with missLog := st.missLog ++ [v],
                  str := mapInsert st.str v (rv.arrayVal.getD i []),
                  runResults := st.runResults ++ [PipelineRunResult.mk r.name
                    (r.value.applyReplacements
                      (mapInsert st.str v (rv.arrayVal.getD i [])) st.arr st.obj)] }) ∧
    (rv.arrayVal.length ≤ i →
      processResult trr ctr tstatus st r = some
        { st with missLog := st.missLog ++ [v],
                  invalid := st.invalid ++ [r.name] }) := by
  have hx : '.' ∉ res ++ idxSuffix i := by
    intro h
    rcases List.mem_append.mp h with h1 | h2
    · exact hres.1 h1
    · exact idxSuffix_no_dot_mem i h2
  have hsplit : splitDots v = [gs "tasks", t, gs "results", res ++ idxSuffix i] := by
    rw [hveq]
    exact splitDots_ref4 t (res ++ idxSuffix i) ht hx
  have hparse : parseResultName (res ++ idxSuffix i) = (res, natToChars i) := by
    have h0 := parseResultName_append_idx res (natToChars i) (natToChars_no_bracket i)
      (isIdxPayload_natToChars i)
    rw [List.append_assoc, List.cons_append] at h0
    unfold idxSuffix
    exact h0
  constructor
  · intro hi
    have hstep : stepVar trr ctr tstatus st v =
        some ({ st with missLog := st.missLog ++ [v],
                        str := mapInsert st.str v (rv.arrayVal.getD i []) },
          VarOutcome.ok) := by
      simp only [stepVar, m1, m2, m3, hsplit, Option.isSome_none, Bool.false_eq_true,
        if_false, hparse, htr, hty, goAtoi_natToChars]
      simp [resultTaskPart, resultFinallyPart, resultResultPart,
        natToChars_ne_star i, hi]
    simp only [processResult, hv]
    simp [processVars, hstep]
  · intro hle
    have hstep : stepVar trr ctr tstatus st v =
        some ({ st with missLog := st.missLog ++ [v] }, VarOutcome.invalid) := by
      simp only [stepVar, m1, m2, m3, hsplit, Option.isSome_none, Bool.false_eq_true,
        if_false, hparse, htr, hty, goAtoi_natToChars]
      simp [resultTaskPart, resultFinallyPart, resultResultPart,
        natToChars_ne_star i, Nat.not_lt.mpr hle]
    simp only [processResult, hv]
    simp [processVars, hstep]

/-- Witness for C5 at the concrete array result `[a,b,c]`: index 1
resolves to `b` and the result is emitted; index 5 marks the declared
result invalid, with a normal return in both cases. -/
theorem array_index_resolution_witness :
    (1 < 3 ∧ processResult
        [(gs "build", [TaskRunResult.mk (gs "list")
          (arrVal [litT "a", litT "b", litT "c"])])] [] [] initAggState
        (PipelineResult.mk (gs "second") (strVal (refT "tasks.build.results.list[1]"))) =
      some { initAggState with
             missLog := [gs "tasks.build.results.list[1]"],
             str := [(gs "tasks.build.results.list[1]", litT "b")],
             runResults := [PipelineRunResult.mk (gs "second") (strVal (litT "b"))] }) ∧
    (3 ≤ 5 ∧ processResult
        [(gs "build", [TaskRunResult.mk (gs "list")
          (arrVal [litT "a", litT "b", litT "c"])])] [] [] initAggState
        (PipelineResult.mk (gs "oob") (strVal (refT "tasks.build.results.list[5]"))) =
      some { initAggState with
             missLog := [gs "tasks.build.results.list[5]"],
             invalid := [gs "oob"] }) := by
  constructor
  · refine ⟨by decide, ?_⟩
    have h := (array_index_resolution
      [(gs "build", [TaskRunResult.mk (gs "list")
        (arrVal [litT "a", litT "b", litT "c"])])] [] [] initAggState
      (PipelineResult.mk (gs "second") (strVal (refT "tasks.build.results.list[1]")))
      (gs "build") (gs "list") (gs "tasks.build.results.list[1]") 1
      (arrVal [litT "a", litT "b", litT "c"])
      (by decide) (by decide) (by decide) (by decide) (by decide) (by decide)
      rfl rfl rfl).1 (by decide)
    rw [h]
    decide
  · refine ⟨by decide, ?_⟩
    have h := (array_index_resolution
      [(gs "build", [TaskRunResult.mk (gs "list")
        (arrVal [litT "a", litT "b", litT "c"])])] [] [] initAggState
      (PipelineResult.mk (gs "oob") (strVal (refT "tasks.build.results.list[5]")))
      (gs "build") (gs "list") (gs "tasks.build.results.list[5]") 5
      (arrVal [litT "a", litT "b", litT "c"])
      (by decide) (by decide) (by decide) (by decide) (by decide) (by decide)
      rfl rfl rfl).2 (by decide)
    rw [h]
    decide

/-- `stepVar` only panics on a producer-prefixed variable of fewer than
three dot-segments: under the complementary assumption it always
returns. -/
theorem stepVar_isSome (trr : List (GoStr × List TaskRunResult))
    (ctr : List (GoStr × List CustomRunResult))
    (tstatus : List (GoStr × GoStr)) (st : AggState) (v : GoStr)
    (h : 3 ≤ (splitDots v).length ∨
      ¬((splitDots v).getD 0 [] = resultTaskPart ∨
        (splitDots v).getD 0 [] = resultFinallyPart)) :
    (stepVar trr ctr tstatus st v).isSome = true := by
  unfold stepVar
  split
  · rfl
  split
  · rfl
  split
  · rfl
  dsimp only
  split
  · rfl
  split
  · rename_i hguard x hnone
    rcases h with h3 | h3
    · rw [List.get?_eq_none] at hnone
      omega
    · exact absurd h3 hguard
  · split
    · rfl
    split
    all_goals repeat' split
    all_goals rfl

theorem processVars_isSome (trr : List (GoStr × List TaskRunResult))
    (ctr : List (GoStr × List CustomRunResult))
    (tstatus : List (GoStr × GoStr)) :
    ∀ (vars : List GoStr) (st : AggState),
      (∀ v ∈ vars, 3 ≤ (splitDots v).length ∨
        ¬((splitDots v).getD 0 [] = resultTaskPart ∨
          (splitDots v).getD 0 [] = resultFinallyPart)) →
      (processVars trr ctr tstatus st vars).isSome = true := by
  intro vars
  induction vars with
  | nil => intro st _; rfl
  | cons v rest ih =>
    intro st hwf
    have h1 := stepVar_isSome trr ctr tstatus st v (hwf v (List.mem_cons_self v rest))
    obtain ⟨⟨st1, oc⟩, hp⟩ := Option.isSome_iff_exists.mp h1
    have h2 := ih st1 (fun w hw => hwf w (List.mem_cons_of_mem v hw))
    obtain ⟨⟨st2, ocs⟩, hq⟩ := Option.isSome_iff_exists.mp h2
    unfold processVars
    rw [hp]
    simp [hq]

theorem processResult_isSome (trr : List (GoStr × List TaskRunResult))
    (ctr : List (GoStr × List CustomRunResult))
    (tstatus : List (GoStr × GoStr)) (st : AggState) (r : PipelineResult)
    (hwf : ∀ v ∈ r.value.refs, 3 ≤ (splitDots v).length ∨
      ¬((splitDots v).getD 0 [] = resultTaskPart ∨
        (splitDots v).getD 0 [] = resultFinallyPart)) :
    (processResult trr ctr tstatus st r).isSome = true := by
  simp only [processResult]
  split
  · rfl
  have h1 := processVars_isSome trr ctr tstatus r.value.refs st hwf
  obtain ⟨⟨st1, ocs⟩, hp⟩ := Option.isSome_iff_exists.mp h1
  rw [hp]
  simp only [bind, Option.bind]
  split <;> rfl

theorem applyAgg_isSome (trr : List (GoStr × List TaskRunResult))
    (ctr : List (GoStr × List CustomRunResult))
    (tstatus : List (GoStr × GoStr)) :
    ∀ (results : List PipelineResult) (st : AggState),
      (∀ r ∈ results, ∀ v ∈ r.value.refs, 3 ≤ (splitDots v).length ∨
        ¬((splitDots v).getD 0 [] = resultTaskPart ∨
          (splitDots v).getD 0 [] = resultFinallyPart)) →
      (applyAgg trr ctr tstatus st results).isSome = true := by
  intro results
  induction results with
  | nil => intro st _; rfl
  | cons r rest ih =>
    intro st hwf
    have h1 := processResult_isSome trr ctr tstatus st r
      (hwf r (List.mem_cons_self r rest))
    obtain ⟨st1, hp⟩ := Option.isSome_iff_exists.mp h1
    have h2 := ih st1 (fun q hq => hwf q (List.mem_cons_of_mem r hq))
    unfold applyAgg
    rw [hp]
    simpa using h2

/-- C1 (amended): whenever every variable of every declared result
either has at least three dot-segments or does not start with a
producer prefix (`tasks`/`finally`), `ApplyTaskResultsToPipelineResults`
returns normally, collecting per-result failures instead of aborting:
the returned list is exactly the aggregated successfully-resolved
results, paired with a single error value that is the list of every
invalid declared result's name (and absent when no result was invalid)
— so a non-empty error does not imply an empty result list.  Without
that shape condition the function can panic on a producer-prefixed
reference of fewer than three segments (see the accompanying
counterexample). -/
theorem pipeline_results_collected (results : List PipelineResult)
    (trr : List (GoStr × List TaskRunResult))
    (ctr : List (GoStr × List CustomRunResult))
    (tstatus : List (GoStr × GoStr))
    (hwf : ∀ r ∈ results, ∀ v ∈ r.value.refs, 3 ≤ (splitDots v).length ∨
      ¬((splitDots v).getD 0 [] = resultTaskPart ∨
        (splitDots v).getD 0 [] = resultFinallyPart)) :
    ∃ st : AggState, applyAgg trr ctr tstatus initAggState results = some st ∧
      applyTaskResultsToPipelineResults results trr ctr tstatus =
        some (st.runResults,
          if 0 < st.invalid.length then some st.invalid else none) := by
  have h1 := applyAgg_isSome trr ctr tstatus results initAggState hwf
  obtain ⟨st, hp⟩ := Option.isSome_iff_exists.mp h1
  refine ⟨st, hp, ?_⟩
  unfold applyTaskResultsToPipelineResults
  rw [hp]
  rfl

/-- Counterexample for C1 as stated: a declared result whose variable
`tasks.x` is producer-prefixed but has only two dot-segments makes
`ApplyTaskResultsToPipelineResults` panic (the `variableParts[2]` index
is out of range), modelled as `none` — the function aborts instead of
collecting the failure. -/
theorem aggregator_panics_on_short_reference :
    applyTaskResultsToPipelineResults
      [PipelineResult.mk (gs "res1") (strVal (refT "tasks.x"))] [] [] [] = none := by
  decide

/-- Witness for the amended C1 theorem: one resolving result and one
invalid result — the error names the invalid one while the resolved
result is still returned (a non-empty error with a non-empty result
list). -/
theorem pipeline_results_collected_witness :
    (∀ r ∈ [PipelineResult.mk (gs "ok") (strVal (refT "tasks.build.results.digest")),
        PipelineResult.mk (gs "bad") (strVal (refT "tasks.gone.results.digest"))],
      ∀ v ∈ r.value.refs, 3 ≤ (splitDots v).length ∨
        ¬((splitDots v).getD 0 [] = resultTaskPart ∨
          (splitDots v).getD 0 [] = resultFinallyPart)) ∧
    ∃ st : AggState,
      applyAgg [(gs "build", [TaskRunResult.mk (gs "digest") (strVal (litT "sha"))])]
          [] [] initAggState
          [PipelineResult.mk (gs "ok") (strVal (refT "tasks.build.results.digest")),
           PipelineResult.mk (gs "bad") (strVal (refT "tasks.gone.results.digest"))] =
        some st ∧
      applyTaskResultsToPipelineResults
          [PipelineResult.mk (gs "ok") (strVal (refT "tasks.build.results.digest")),
           PipelineResult.mk (gs "bad") (strVal (refT "tasks.gone.results.digest"))]
          [(gs "build", [TaskRunResult.mk (gs "digest") (strVal (litT "sha"))])]
          [] [] =
        some (st.runResults,
          if 0 < st.invalid.length then some st.invalid else none) :=
  ⟨by decide,
    pipeline_results_collected
      [PipelineResult.mk (gs "ok") (strVal (refT "tasks.build.results.digest")),
       PipelineResult.mk (gs "bad") (strVal (refT "tasks.gone.results.digest"))]
      [(gs "build", [TaskRunResult.mk (gs "digest") (strVal (litT "sha"))])]
      [] [] (by decide)⟩

/-- A variable already present in any of the three replacement maps is
a memo hit: state unchanged, outcome ok, no resolution performed. -/
theorem stepVar_memo_hit (trr : List (GoStr × List TaskRunResult))
    (ctr : List (GoStr × List CustomRunResult))
    (tstatus : List (GoStr × GoStr)) (st : AggState) (v : GoStr)
    (h : (mapLookup st.str v).isSome = true ∨ (mapLookup st.arr v).isSome = true ∨
      (mapLookup st.obj v).isSome = true) :
    stepVar trr ctr tstatus st v = some (st, VarOutcome.ok) := by
  unfold stepVar
  by_cases h1 : (mapLookup st.str v).isSome = true
  · rw [if_pos h1]
  rw [if_neg h1]
  by_cases h2 : (mapLookup st.arr v).isSome = true
  · rw [if_pos h2]
  rw [if_neg h2]
  rcases h with h3 | h3 | h3
  · exact absurd h3 h1
  · exact absurd h3 h2
  · rw [if_pos h3]

/-- One `stepVar` call only ever adds map entries, and appends at most
its own variable to the ghost miss log. -/
theorem stepVar_frame (trr : List (GoStr × List TaskRunResult))
    (ctr : List (GoStr × List CustomRunResult))
    (tstatus : List (GoStr × GoStr)) (st : AggState) (w : GoStr)
    (st2 : AggState) (oc : VarOutcome)
    (h : stepVar trr ctr tstatus st w = some (st2, oc)) :
    (∀ k, (mapLookup st.str k).isSome = true → (mapLookup st2.str k).isSome = true) ∧
    (∀ k, (mapLookup st.arr k).isSome = true → (mapLookup st2.arr k).isSome = true) ∧
    (∀ k, (mapLookup st.obj k).isSome = true → (mapLookup st2.obj k).isSome = true) ∧
    (st2.missLog = st.missLog ∨ st2.missLog = st.missLog ++ [w]) := by
  unfold stepVar at h
  repeat' split at h
  all_goals try dsimp only at h
  all_goals repeat' split at h
  all_goals first
    | exact Option.noConfusion h
    | (injection h with hpair
       simp only [Prod.mk.injEq] at hpair
       obtain ⟨rfl, rfl⟩ := hpair
       refine ⟨fun k hk => ?_, fun k hk => ?_, fun k hk => ?_, ?_⟩ <;>
         first
         | exact hk
         | exact mapLookup_insert_isSome _ _ _ _ hk
         | exact Or.inl rfl
         | exact Or.inr rfl)

/-- Once a variable is stored in some replacement map, a `stepVar` call
(on any variable) keeps it stored and never logs a new miss for it. -/
theorem stepVar_keeps_stored (trr : List (GoStr × List TaskRunResult))
    (ctr : List (GoStr × List CustomRunResult))
    (tstatus : List (GoStr × GoStr)) (st : AggState) (w v : GoStr)
    (st2 : AggState) (oc : VarOutcome)
    (h : stepVar trr ctr tstatus st w = some (st2, oc))
    (hstored : (mapLookup st.str v).isSome = true ∨
      (mapLookup st.arr v).isSome = true ∨ (mapLookup st.obj v).isSome = true) :
    ((mapLookup st2.str v).isSome = true ∨
      (mapLookup st2.arr v).isSome = true ∨ (mapLookup st2.obj v).isSome = true) ∧
    st2.missLog.count v = st.missLog.count v := by
  by_cases hw : w = v
  · subst hw
    rw [stepVar_memo_hit trr ctr tstatus st w hstored] at h
    injection h with hpair
    simp only [Prod.mk.injEq] at hpair
    obtain ⟨rfl, rfl⟩ := hpair
    exact ⟨hstored, rfl⟩
  · obtain ⟨f1, f2, f3, flog⟩ := stepVar_frame trr ctr tstatus st w st2 oc h
    refine ⟨?_, ?_⟩
    · rcases hstored with h3 | h3 | h3
      · exact Or.inl (f1 v h3)
      · exact Or.inr (Or.inl (f2 v h3))
      · exact Or.inr (Or.inr (f3 v h3))
    · rcases flog with hl | hl
      · rw [hl]
      · rw [hl, List.count_append]
        simp [List.count_cons, hw]

theorem processVars_keeps_stored (trr : List (GoStr × List TaskRunResult))
    (ctr : List (GoStr × List CustomRunResult))
    (tstatus : List (GoStr × GoStr)) (v : GoStr) :
    ∀ (vars : List GoStr) (st st2 : AggState) (ocs : List VarOutcome),
      processVars trr ctr tstatus st vars = some (st2, ocs) →
      ((mapLookup st.str v).isSome = true ∨
        (mapLookup st.arr v).isSome = true ∨ (mapLookup st.obj v).isSome = true) →
      ((mapLookup st2.str v).isSome = true ∨
        (mapLookup st2.arr v).isSome = true ∨ (mapLookup st2.obj v).isSome = true) ∧
      st2.missLog.count v = st.missLog.count v := by
  intro vars
  induction vars with
  | nil =>
    intro st st2 ocs h hstored
    unfold processVars at h
    injection h with hpair
    simp only [Prod.mk.injEq] at hpair
    obtain ⟨rfl, rfl⟩ := hpair
    exact ⟨hstored, rfl⟩
  | cons w rest ih =>
    intro st st2 ocs h hstored
    unfold processVars at h
    cases hs : stepVar trr ctr tstatus st w with
    | none => rw [hs] at h; exact Option.noConfusion h
    | some p =>
      obtain ⟨st1, oc⟩ := p
      rw [hs] at h
      simp only [bind, Option.bind] at h
      cases hr : processVars trr ctr tstatus st1 rest with
      | none => rw [hr] at h; exact Option.noConfusion h
      | some q =>
        obtain ⟨st3, ocs3⟩ := q
        rw [hr] at h
        injection h with hpair
        simp only [Prod.mk.injEq] at hpair
        obtain ⟨rfl, h2⟩ := hpair
        obtain ⟨k1, k2⟩ := stepVar_keeps_stored trr ctr tstatus st w v st1 oc hs hstored
        obtain ⟨k3, k4⟩ := ih st1 st3 ocs3 hr k1
        exact ⟨k3, k4.trans k2⟩

theorem processResult_keeps_stored (trr : List (GoStr × List TaskRunResult))
    (ctr : List (GoStr × List CustomRunResult))
    (tstatus : List (GoStr × GoStr)) (st st2 : AggState) (r : PipelineResult)
    (v : GoStr)
    (h : processResult trr ctr tstatus st r = some st2)
    (hstored : (mapLookup st.str v).isSome = true ∨
      (mapLookup st.arr v).isSome = true ∨ (mapLookup st.obj v).isSome = true) :
    ((mapLookup st2.str v).isSome = true ∨
      (mapLookup st2.arr v).isSome = true ∨ (mapLookup st2.obj v).isSome = true) ∧
    st2.missLog.count v = st.missLog.count v := by
  simp only [processResult] at h
  split at h
  · injection h with h1
    subst h1
    exact ⟨hstored, rfl⟩
  · cases hp : processVars trr ctr tstatus st r.value.refs with
    | none => rw [hp] at h; exact Option.noConfusion h
    | some q =>
      obtain ⟨st1, ocs⟩ := q
      rw [hp] at h
      simp only [bind, Option.bind] at h
      obtain ⟨k1, k2⟩ := processVars_keeps_stored trr ctr tstatus v r.value.refs
        st st1 ocs hp hstored
      split at h <;> (injection h with h1; subst h1; exact ⟨k1, k2⟩)

theorem applyAgg_keeps_stored (trr : List (GoStr × List TaskRunResult))
    (ctr : List (GoStr × List CustomRunResult))
    (tstatus : List (GoStr × GoStr)) (v : GoStr) :
    ∀ (results : List PipelineResult) (st st2 : AggState),
      applyAgg trr ctr tstatus st results = some st2 →
      ((mapLookup st.str v).isSome = true ∨
        (mapLookup st.arr v).isSome = true ∨ (mapLookup st.obj v).isSome = true) →
      ((mapLookup st2.str v).isSome = true ∨
        (mapLookup st2.arr v).isSome = true ∨ (mapLookup st2.obj v).isSome = true) ∧
      st2.missLog.count v = st.missLog.count v := by
  intro results
  induction results with
  | nil =>
    intro st st2 h hstored
    unfold applyAgg at h
    injection h with h1
    subst h1
    exact ⟨hstored, rfl⟩
  | cons r rest ih =>
    intro st st2 h hstored
    unfold applyAgg at h
    cases hp : processResult trr ctr tstatus st r with
    | none => rw [hp] at h; exact Option.noConfusion h
    | some st1 =>
      rw [hp] at h
      simp only [bind, Option.bind] at h
      obtain ⟨k1, k2⟩ := processResult_keeps_stored trr ctr tstatus st st1 r v hp hstored
      obtain ⟨k3, k4⟩ := ih st1 st2 h k1
      exact ⟨k3, k4.trans k2⟩

/-- C10 (amended): within one aggregation, once a variable expression
is stored in one of the three replacement maps under the expression
itself as key, it stays stored for the rest of the call and the
aggregator never resolves it again — every later occurrence is a memo
hit, so no further miss is logged for it and the stored value is
reused.  Splat expressions, however, are stored under the stripped key
(the raw expression with `[*]` removed) while the memo check uses the
raw expression, so a repeated splat expression is re-resolved on every
occurrence (idempotently; see the accompanying counterexample). -/
theorem memoized_raw_key (trr : List (GoStr × List TaskRunResult))
    (ctr : List (GoStr × List CustomRunResult))
    (tstatus : List (GoStr × GoStr)) (st : AggState)
    (results : List PipelineResult) (st2 : AggState) (v : GoStr)
    (h : applyAgg trr ctr tstatus st results = some st2)
    (hstored : (mapLookup st.str v).isSome = true ∨
      (mapLookup st.arr v).isSome = true ∨ (mapLookup st.obj v).isSome = true) :
    ((mapLookup st2.str v).isSome = true ∨
      (mapLookup st2.arr v).isSome = true ∨ (mapLookup st2.obj v).isSome = true) ∧
    st2.missLog.count v = st.missLog.count v :=
  applyAgg_keeps_stored trr ctr tstatus v results st st2 h hstored

/-- Counterexample for C10 as stated: the same splat expression in two
declared results is resolved twice — it is stored into the array map
under the stripped key on the first miss, but the memo check uses the
raw expression, so the second occurrence misses again (the ghost miss
log records the expression twice). -/
theorem splat_not_memoized :
    (applyAgg [(gs "t", [TaskRunResult.mk (gs "r") (arrVal [litT "a"])])] [] []
        initAggState
        [PipelineResult.mk (gs "p1") (strVal (refT "tasks.t.results.r[*]")),
         PipelineResult.mk (gs "p2") (strVal (refT "tasks.t.results.r[*]"))]).map
      AggState.missLog =
      some [gs "tasks.t.results.r[*]", gs "tasks.t.results.r[*]"] := by
  decide

/-- Witness for the amended C10 theorem: a stored string expression is
still stored after aggregation and its miss count is unchanged (the
occurrence in the processed result was a memo hit). -/
theorem memoized_raw_key_witness :
    ∃ st2 : AggState,
      applyAgg [] [] []
          (AggState.mk [(gs "tasks.t.results.r", litT "x")] [] [] [] [] [])
          [PipelineResult.mk (gs "p1") (strVal (refT "tasks.t.results.r"))] =
        some st2 ∧
      (((mapLookup st2.str (gs "tasks.t.results.r")).isSome = true ∨
        (mapLookup st2.arr (gs "tasks.t.results.r")).isSome = true ∨
        (mapLookup st2.obj (gs "tasks.t.results.r")).isSome = true) ∧
      st2.missLog.count (gs "tasks.t.results.r") = 0) := by
  have h1 : (applyAgg [] [] []
      (AggState.mk [(gs "tasks.t.results.r", litT "x")] [] [] [] [] [])
      [PipelineResult.mk (gs "p1") (strVal (refT "tasks.t.results.r"))]).isSome =
      true := by decide
  obtain ⟨st2, hp⟩ := Option.isSome_iff_exists.mp h1
  exact ⟨st2, hp, memoized_raw_key [] [] []
    (AggState.mk [(gs "tasks.t.results.r", litT "x")] [] [] [] [] [])
    [PipelineResult.mk (gs "p1") (strVal (refT "tasks.t.results.r"))] st2
    (gs "tasks.t.results.r") hp (by decide)⟩

end Pipeline
